import Mathlib

/-!
Verification of the span-geometry core of `flair/datasets/biomedical.py`.

The Python `Entity` stores `char_span = range(start, end)`; its predicates
read `char_span.start` and `char_span.stop`, which are exactly the two
constructor arguments.  We embed an entity as a record of the two offsets
(Python ints, hence `Int`) and the type label.
-/

structure Entity where
  start : Int
  stop : Int
  type : String
  deriving DecidableEq, Repr

/-- `len(self.char_span)` for `range(start, stop)`: number of elements,
clamped at zero for a degenerate range. -/
def Entity.span_len (e : Entity) : Int := max 0 (e.stop - e.start)

/-- `Entity.is_before`: `self.char_span.stop <= other_entity.char_span.start`. -/
def Entity.is_before (a b : Entity) : Bool := a.stop ≤ b.start

/-- `Entity.contains`: `other.start >= self.start and other.stop <= self.stop`. -/
def Entity.contains (a b : Entity) : Bool := b.start ≥ a.start && b.stop ≤ a.stop

/-- `Entity.overlaps`:
`(self.start <= other.start < self.stop) or (self.start < other.stop <= self.stop)`. -/
def Entity.overlaps (a b : Entity) : Bool :=
  (a.start ≤ b.start && b.start < a.stop) || (a.start < b.stop && b.stop ≤ a.stop)

/-- The total preorder realised by `compare_by_start_and_length`:
`a` sorts no later than `b` iff the comparator is `≤ 0`, i.e. start offsets
ascending and, on ties, longer spans first.  Python's `sorted` is stable, and a
stable sort by a total preorder is computed by insertion sort. -/
def entLE (a b : Entity) : Prop :=
  a.start < b.start ∨ (a.start = b.start ∧ b.span_len ≤ a.span_len)

instance : DecidableRel entLE := fun a b => by
  unfold entLE; infer_instance

instance : IsTotal Entity entLE :=
  ⟨by intro a b; unfold entLE; omega⟩

instance : IsTrans Entity entLE :=
  ⟨by intro a b c hab hbc; unfold entLE at *; omega⟩

/-! ## Raw-interval merge: `overlap` and `merge_overlapping_entities`

Intervals are bare pairs `(start, end)` as in the Python module-level helpers.
`overlap(e1, e2)` returns `range(max(s1, s2), min(e1, e2))`, which is truthy
exactly when `max(s1, s2) < min(e1, e2)`. -/

def overlap (e1 e2 : Int × Int) : Bool := max e1.1 e2.1 < min e1.2 e2.2

/-- First pair `(e1, e2)` of `combinations(entities, 2)` — positions `i < j`
enumerated lexicographically — whose `overlap` is non-empty. -/
def findPair : List (Int × Int) → Option ((Int × Int) × (Int × Int))
  | [] => none
  | x :: xs =>
    match xs.find? (fun y => overlap x y) with
    | some y => some (x, y)
    | none => findPair xs

/-- One iteration of the `while not entity_set_stable` body: merge the first
overlapping pair (`list.remove` deletes the first occurrence of the value,
the merged interval is appended) and report instability. -/
def mergeStep (l : List (Int × Int)) : Option (List (Int × Int)) :=
  match findPair l with
  | none => none
  | some (e1, e2) =>
    some (((l.erase e1).erase e2) ++ [(min e1.1 e2.1, max e1.2 e2.2)])

/-- The rescan loop, with fuel.  Each productive step removes two intervals and
appends one, so `l.length` steps of fuel always suffice (proved below). -/
def mergeFuel : Nat → List (Int × Int) → List (Int × Int)
  | 0, l => l
  | n + 1, l =>
    match mergeStep l with
    | none => l
    | some l' => mergeFuel n l'

/-- `merge_overlapping_entities` from the source: repeated pairwise merge of
overlapping raw intervals until stable. -/
def merge_overlapping_entities (entities : List (Int × Int)) : List (Int × Int) :=
  mergeFuel entities.length entities

/-! ## Datasets: `InternalBioNerDataset`, `merge_datasets`, `filter_entities`

Python dicts preserve insertion order; we embed them as association lists.
`dict.update` overwrites the value of an existing key in place and appends
new keys in iteration order. -/

structure InternalBioNerDataset where
  documents : List (String × String)
  entities_per_document : List (String × List Entity)
  deriving Repr

/-- `d[k] = v` on an insertion-ordered dict: replace in place or append. -/
def setKey {α : Type} : List (String × α) → String → α → List (String × α)
  | [], k, v => [(k, v)]
  | (k', v') :: rest, k, v =>
    if k' = k then (k', v) :: rest else (k', v') :: setKey rest k v

/-- `base.update(upd)` on insertion-ordered dicts. -/
def updateKeys {α : Type} (base upd : List (String × α)) : List (String × α) :=
  upd.foldl (fun acc kv => setKey acc kv.1 kv.2) base

/-- `merge_datasets`: fold `dict.update` over both maps, starting from empty
dicts; the later dataset wins per key. -/
def merge_datasets (data_sets : List InternalBioNerDataset) : InternalBioNerDataset :=
  data_sets.foldl
    (fun acc ds =>
      { documents := updateKeys acc.documents ds.documents
        entities_per_document :=
          updateKeys acc.entities_per_document ds.entities_per_document })
    { documents := [], entities_per_document := [] }

/-- `filter_entities`: the documents map is passed through unchanged and each
per-document entity list is filtered by type membership; the documents map is
never consulted. -/
def filter_entities (dataset : InternalBioNerDataset) (target_types : List String) :
    InternalBioNerDataset :=
  { documents := dataset.documents
    entities_per_document :=
      dataset.entities_per_document.map
        (fun kv => (kv.1, kv.2.filter (fun e => e.type ∈ target_types))) }

/-! ## `find_overlapping_entities` -/

/-- Sort key of `find_overlapping_entities`: start offset ascending. -/
def startLE (a b : Entity) : Prop := a.start ≤ b.start

instance : DecidableRel startLE := fun a b => by
  unfold startLE; infer_instance

instance : IsTotal Entity startLE :=
  ⟨by intro a b; unfold startLE; omega⟩

instance : IsTrans Entity startLE :=
  ⟨by intro a b c hab hbc; unfold startLE at *; omega⟩

/-- Inner loop of `find_overlapping_entities`: record pairs with subsequent
entities while they overlap, `break` at the first non-overlapping one. -/
def overlapPairs : List Entity → List (Entity × Entity)
  | [] => []
  | c :: rest =>
    ((rest.takeWhile fun o => c.overlaps o).map fun o => (c, o)) ++ overlapPairs rest

/-- `find_overlapping_entities` from the source: sort by start offset, then
scan forward with an early break. -/
def find_overlapping_entities (entities : List Entity) : List (Entity × Entity) :=
  overlapPairs (List.insertionSort startLE entities)

/-- All ordered pairs of the list (earlier element first) where the earlier
entity overlaps the later one — no early break. -/
def allOverlapPairs : List Entity → List (Entity × Entity)
  | [] => []
  | c :: rest =>
    ((rest.filter fun o => c.overlaps o).map fun o => (c, o)) ++ allOverlapPairs rest

/-- Spec-side definition for the refinement claim: exactly the pairs `(a, b)`
with `a` preceding `b` in the start-ascending sorted order such that
`a.overlaps(b)`. -/
def findOverlappingEntitiesSpec (entities : List Entity) : List (Entity × Entity) :=
  allOverlapPairs (List.insertionSort startLE entities)

/-! ## `normalize_entity_spans`

The Python function works on a positional array whose cells may be set to
`None` (erased) or overwritten (the overlap shift).  We model the array as
a `List (Option Entity)` and one outer-loop pass as a function on the tail
of the current position.  During the inner scan each cell of the tail is
classified:

* `gone` — the cell was already `None`;
* `plain` — scanned but left untouched (none of the three tests fired);
* `inner` — recorded in `contained_entities`;
* `moved` — overwritten with the shifted entity
  `Entity((current.stop, other.stop), other.type)`;
* `tail` — at or after the cell that triggered the `break`, never scanned.
-/

inductive Slot where
  | gone : Slot
  | plain (e : Entity) : Slot
  | inner (e : Entity) : Slot
  | moved (e : Entity) : Slot
  | tail (e : Entity) : Slot
  deriving DecidableEq, Repr

/-- Cells after the `break`, never scanned. -/
def tailAll : List (Option Entity) → List Slot
  | [] => []
  | none :: xs => Slot.gone :: tailAll xs
  | some e :: xs => Slot.tail e :: tailAll xs

/-- The inner scan of one outer-loop pass, classifying every cell of the tail:
skip `None` cells, `break` at the first entity located after `current`,
record contained entities, overwrite partially overlapping ones. -/
def scanSlots (c : Entity) : List (Option Entity) → List Slot
  | [] => []
  | none :: xs => Slot.gone :: scanSlots c xs
  | some o :: xs =>
    if c.is_before o then Slot.tail o :: tailAll xs
    else if c.contains o then Slot.inner o :: scanSlots c xs
    else if c.overlaps o then Slot.moved ⟨c.stop, o.stop, o.type⟩ :: scanSlots c xs
    else Slot.plain o :: scanSlots c xs

/-- The entities recorded in `contained_entities`, in positional order. -/
def innerEntities : List Slot → List Entity
  | [] => []
  | Slot.inner e :: xs => e :: innerEntities xs
  | Slot.gone :: xs => innerEntities xs
  | Slot.plain _ :: xs => innerEntities xs
  | Slot.moved _ :: xs => innerEntities xs
  | Slot.tail _ :: xs => innerEntities xs

/-- The comparator-induced order on `contained_entities` entries carrying
their occurrence number: Python's stable sort of `(entity, position)` pairs
by `compare_by_start_and_length` on the entity equals the (unique) sort by
the lexicographic linear order (comparator, occurrence number). -/
def occLE (p q : Nat × Entity) : Prop :=
  p.2.start < q.2.start ∨
    (p.2.start = q.2.start ∧ q.2.span_len < p.2.span_len) ∨
    (p.2.start = q.2.start ∧ q.2.span_len = p.2.span_len ∧ p.1 ≤ q.1)

instance : DecidableRel occLE := fun p q => by
  unfold occLE; infer_instance

instance : IsTotal (Nat × Entity) occLE :=
  ⟨by intro a b; unfold occLE; omega⟩

instance : IsTrans (Nat × Entity) occLE :=
  ⟨by intro a b c hab hbc; unfold occLE at *; omega⟩

/-- The greedy tiling walk over the sorted contained group: keep each entity
lying fully after the running selected one, erase (report) the others.
Returns the occurrence numbers to erase. -/
def greedyErase : Entity → List (Nat × Entity) → List Nat
  | _, [] => []
  | cur, (p, e) :: rest =>
    if cur.is_before e then greedyErase e rest
    else p :: greedyErase cur rest

/-- Rebuild the array tail from the classified slots, erasing the contained
occurrences listed in `er` (the second argument counts contained occurrences
seen so far). -/
def applySlots (er : List Nat) : List Slot → Nat → List (Option Entity)
  | [], _ => []
  | Slot.gone :: xs, k => none :: applySlots er xs k
  | Slot.plain e :: xs, k => some e :: applySlots er xs k
  | Slot.moved e :: xs, k => some e :: applySlots er xs k
  | Slot.tail e :: xs, k => some e :: applySlots er xs k
  | Slot.inner e :: xs, k =>
    (if k ∈ er then none else some e) :: applySlots er xs (k + 1)

/-- The conflict-resolution decision after the inner scan, from the recorded
`contained_entities` (numbered by occurrence): whether the current span is
kept, and which contained occurrences are erased.  With no contained entity
nothing happens; with exactly one it is erased and the current span kept;
with more the group is sorted by `compare_by_start_and_length`, greedily
tiled, the losing members erased, and the current (container) span erased. -/
def passDecision (slots : List Slot) : Bool × List Nat :=
  match (innerEntities slots).enum with
  | [] => (true, [])
  | [_] => (true, [0])
  | occs@(_ :: _ :: _) =>
    match List.insertionSort occLE occs with
    | [] => (false, [])
    | (_, e0) :: restOccs => (false, greedyErase e0 restOccs)

/-- One pass of the outer loop for `current = c` over the array tail `rest`:
returns the new value of the current cell and the new tail. -/
def passRest (c : Entity) (rest : List (Option Entity)) :
    Option Entity × List (Option Entity) :=
  let slots := scanSlots c rest
  ((if (passDecision slots).1 then some c else none),
    applySlots (passDecision slots).2 slots 0)

theorem tailAll_length (xs : List (Option Entity)) : (tailAll xs).length = xs.length := by
  induction xs with
  | nil => rfl
  | cons x xs ih => cases x <;> simp [tailAll, ih]

theorem scanSlots_length (c : Entity) (xs : List (Option Entity)) :
    (scanSlots c xs).length = xs.length := by
  induction xs with
  | nil => rfl
  | cons x xs ih =>
    cases x with
    | none => simp [scanSlots, ih]
    | some o =>
      simp only [scanSlots]
      split
      · simp [tailAll_length]
      · split
        · simp [ih]
        · split <;> simp [ih]

theorem applySlots_length (er : List Nat) (xs : List Slot) (k : Nat) :
    (applySlots er xs k).length = xs.length := by
  induction xs generalizing k with
  | nil => rfl
  | cons x xs ih => cases x <;> simp [applySlots, ih]

theorem passRest_length (c : Entity) (rest : List (Option Entity)) :
    (passRest c rest).2.length = rest.length := by
  show (applySlots _ _ 0).length = _
  rw [applySlots_length, scanSlots_length]

/-- The outer loop of `normalize_entity_spans` on the positional array:
skip erased cells, run one pass per live cell.  The pass preserves the
length of the tail, so `l.length` steps of fuel always suffice. -/
def normalizeSlotsFuel : Nat → List (Option Entity) → List (Option Entity)
  | 0, l => l
  | _ + 1, [] => []
  | n + 1, none :: rest => none :: normalizeSlotsFuel n rest
  | n + 1, some c :: rest =>
    (passRest c rest).1 :: normalizeSlotsFuel n (passRest c rest).2

def normalizeSlots (l : List (Option Entity)) : List (Option Entity) :=
  normalizeSlotsFuel l.length l

/-- `normalize_entity_spans` from the source: sort by
`compare_by_start_and_length`, run the erase/shift passes, return the cells
not marked erased. -/
def normalize_entity_spans (entities : List Entity) : List Entity :=
  (normalizeSlots ((List.insertionSort entLE entities).map some)).filterMap id

/-! ## `CoNLLWriter.write_to_conll`

The writer consumes a document text, two injected segmentation functions
(each returning a list of segments and a parallel list of character offsets,
combined with `zip`, which truncates to the shorter list), and the document's
entities sorted by `(char_span.start, char_span.stop)` into a queue.
We model the emitted file as a list of records — one `line token tag` per
token and one `blank` separator after every sentence — and the unconditional
`popleft` on an empty queue (an `IndexError` in Python) as `none`. -/

inductive ConllRec where
  | line (token : String) (tag : String) : ConllRec
  | blank : ConllRec
  deriving DecidableEq, Repr

/-- Sort key of the writer's entity queue:
`attrgetter('char_span.start', 'char_span.stop')`, ascending. -/
def writerLE (a b : Entity) : Prop :=
  a.start < b.start ∨ (a.start = b.start ∧ a.stop ≤ b.stop)

instance : DecidableRel writerLE := fun a b => by
  unfold writerLE; infer_instance

/-- The loop state of `write_to_conll`: the active span, the remaining queue
and the `in_entity` flag. -/
structure TagState where
  current : Option Entity
  queue : List Entity
  in_entity : Bool
  deriving Repr

/-- The per-token body: deactivate and advance past a finished span, then tag
`B-`/`I-`/`O` according to whether the absolute offset falls in the active
span. -/
def tagToken (st : TagState) (offset : Int) : TagState × String :=
  let st1 : TagState :=
    match st.current with
    | some ce =>
      if offset ≥ ce.stop then
        match st.queue with
        | e :: rest => { current := some e, queue := rest, in_entity := false }
        | [] => { current := none, queue := [], in_entity := false }
      else st
    | none => st
  match st1.current with
  | some ce =>
    if ce.start ≤ offset ∧ offset < ce.stop then
      if st1.in_entity then ({ st1 with in_entity := true }, "I-" ++ ce.type)
      else ({ st1 with in_entity := true }, "B-" ++ ce.type)
    else ({ st1 with in_entity := false }, "O")
  | none => ({ st1 with in_entity := false }, "O")

/-- The token loop of one sentence: absolute offset is sentence offset plus
token offset; emit one record per token. -/
def tagTokens (sentence_offset : Int) :
    TagState → List (String × Int) → TagState × List ConllRec
  | st, [] => (st, [])
  | st, (token, token_offset) :: rest =>
    let p := tagToken st (sentence_offset + token_offset)
    let q := tagTokens sentence_offset p.1 rest
    (q.1, ConllRec.line token p.2 :: q.2)

/-- The sentence loop: tokenize each sentence, run the token loop, emit a
blank separator record after each sentence. -/
def tagSentences (tokenizer : String → List String × List Int) :
    TagState → List (String × Int) → TagState × List ConllRec
  | st, [] => (st, [])
  | st, (sentence, sentence_offset) :: rest =>
    let toks := tokenizer sentence
    let p := tagTokens sentence_offset st (toks.1.zip toks.2)
    let q := tagSentences tokenizer p.1 rest
    (q.1, p.2 ++ [ConllRec.blank] ++ q.2)

/-- Processing of one document inside `write_to_conll`: split into sentences,
sort the entities into a queue and pop its front unconditionally — `none`
models the `IndexError` raised when the document has no entities. -/
def writeDocument (tokenizer sentence_splitter : String → List String × List Int)
    (document_text : String) (entities : List Entity) : Option (List ConllRec) :=
  let sents := sentence_splitter document_text
  match List.insertionSort writerLE entities with
  | [] => none
  | current :: queue =>
    some (tagSentences tokenizer
      { current := some current, queue := queue, in_entity := false }
      (sents.1.zip sents.2)).2

/-- The document loop of `write_to_conll`: documents in map order; looking up
a document id missing from `entities_per_document` is a `KeyError`, and any
failing document aborts the run — both modelled as `none`. -/
def writeDocs (tokenizer sentence_splitter : String → List String × List Int)
    (entities_per_document : List (String × List Entity)) :
    List (String × String) → Option (List ConllRec)
  | [] => some []
  | (document_id, document_text) :: rest =>
    match entities_per_document.lookup document_id with
    | none => none
    | some entities =>
      match writeDocument tokenizer sentence_splitter document_text entities with
      | none => none
      | some recs =>
        match writeDocs tokenizer sentence_splitter entities_per_document rest with
        | none => none
        | some recs' => some (recs ++ recs')

/-- `CoNLLWriter.write_to_conll` over a dataset. -/
def write_to_conll (tokenizer sentence_splitter : String → List String × List Int)
    (dataset : InternalBioNerDataset) : Option (List ConllRec) :=
  writeDocs tokenizer sentence_splitter dataset.entities_per_document dataset.documents

/-- Keys of an insertion-ordered dict. -/
def dictKeys {α : Type} (l : List (String × α)) : List String := l.map Prod.fst

/-- Interval disjointness of two spans: `range(max starts, min stops)` empty. -/
def Disj (a b : Entity) : Prop := min a.stop b.stop ≤ max a.start b.start

/-! ## Invariants of the normalization array

The array invariant discovered for the correctness proof of
`normalize_entity_spans`, stated over the live (non-`None`) cells in
positional order (expressed by two- and three-element sublists):

* `Inv1` — of any two live cells, the earlier one starts no later, or the
  later one lies entirely to its left (this weakening of sortedness is what
  tiling-kept contained spans may break);
* `Inv3` — for live cells `a` before `o` before `d`: if `o` already lies
  fully after `a` (the `break` condition), then `d` is disjoint from `a`;
* `ValidL` — every live span is non-degenerate.

The initial sorted array satisfies all three and one outer-loop pass
preserves them. -/

def Inv1 (l : List (Option Entity)) : Prop :=
  ∀ a b : Entity, [some a, some b].Sublist l → a.start ≤ b.start ∨ b.stop ≤ a.start

def Inv3 (l : List (Option Entity)) : Prop :=
  ∀ a o d : Entity, [some a, some o, some d].Sublist l →
    a.stop ≤ o.start → a.stop ≤ d.start ∨ d.stop ≤ a.start

def ValidL (l : List (Option Entity)) : Prop :=
  ∀ e : Entity, some e ∈ l → e.start < e.stop

/-- What one pass records about each scanned cell, relating the original cell
value to its classification (for `current = c`). -/
def SlotDesc (c : Entity) : Option Entity → Slot → Prop
  | none, Slot.gone => True
  | some o, Slot.plain e => e = o ∧ o.stop ≤ c.start
  | some o, Slot.inner e => e = o ∧ c.start ≤ o.start ∧ o.stop ≤ c.stop
  | some o, Slot.moved m =>
      m = ⟨c.stop, o.stop, o.type⟩ ∧ c.start ≤ o.start ∧ o.start < c.stop ∧ c.stop < o.stop
  | some o, Slot.tail e => e = o ∧ (c.stop ≤ o.start ∨ o.stop ≤ c.start)
  | _, _ => False

/-- How a surviving cell of the rebuilt tail arose from a classified slot:
directly from a `plain`/`tail`/`moved` slot, or from an `inner` slot whose
occurrence number escaped the erase list. -/
def GiveIx (er : List Nat) (full : List Slot) (k : Nat) (a : Entity) :
    Slot → Option Nat → Prop
  | Slot.plain e, none => e = a
  | Slot.tail e, none => e = a
  | Slot.moved e, none => e = a
  | Slot.inner e, some p => e = a ∧ p ∉ er ∧ (p, a) ∈ (innerEntities full).enumFrom k
  | _, _ => False

/-- The arithmetic content of one pass for a surviving span `a` with original
cell value `oa`: untouched with its interval left of `current` (`plain`),
untouched beyond the break (`tail`), shifted (`moved`), or a surviving
contained span (`inr = true`). -/
def PassDescB (c a oa : Entity) (inr : Bool) : Prop :=
  if inr then
    a.start = oa.start ∧ a.stop = oa.stop ∧ c.start ≤ a.start ∧ a.stop ≤ c.stop
  else
    (a.start = oa.start ∧ a.stop = oa.stop ∧ a.stop ≤ c.start) ∨
    (a.start = oa.start ∧ a.stop = oa.stop ∧ (c.stop ≤ a.start ∨ a.stop ≤ c.start)) ∨
    (a.start = c.stop ∧ a.stop = oa.stop ∧
      c.start ≤ oa.start ∧ oa.start < c.stop ∧ c.stop < oa.stop)

/-! ## Theorems -/

/-! ### Termination and stability of the raw-interval merge (C8, C5) -/

theorem findPair_mem {l : List (Int × Int)} {e1 e2 : Int × Int}
    (h : findPair l = some (e1, e2)) : e1 ∈ l ∧ e2 ∈ l.erase e1 := by
  induction l with
  | nil => simp [findPair] at h
  | cons x xs ih =>
    rw [findPair] at h
    cases hf : xs.find? (fun y => overlap x y) with
    | some y =>
      rw [hf] at h
      injection h with h'
      injection h' with h1 h2
      subst h1; subst h2
      refine ⟨List.mem_cons_self _ _, ?_⟩
      rw [List.erase_cons_head]
      exact List.mem_of_find?_eq_some hf
    | none =>
      rw [hf] at h
      obtain ⟨h1, h2⟩ := ih h
      refine ⟨List.mem_cons_of_mem _ h1, ?_⟩
      rw [List.erase_cons]
      by_cases hx : x = e1
      · simp [hx]
        exact List.mem_of_mem_erase h2
      · simp [hx]
        exact Or.inr h2

theorem length_erase_mem {α : Type} [BEq α] [LawfulBEq α] {a : α} :
    ∀ {l : List α}, a ∈ l → (l.erase a).length + 1 = l.length := by
  intro l
  induction l with
  | nil => intro h; cases h
  | cons x xs ih =>
    intro h
    rw [List.erase_cons]
    by_cases hx : x = a
    · simp [hx]
    · have hxa : (x == a) = false := beq_eq_false_iff_ne.mpr hx
      simp only [hxa, Bool.false_eq_true, if_false, List.length_cons]
      have hmem : a ∈ xs := by
        rcases List.mem_cons.mp h with he | hm
        · exact absurd he.symm hx
        · exact hm
      rw [ih hmem]

theorem mergeStep_length {l l' : List (Int × Int)} (h : mergeStep l = some l') :
    l'.length + 1 = l.length := by
  unfold mergeStep at h
  cases hf : findPair l with
  | none => rw [hf] at h; exact absurd h (by simp)
  | some p =>
    obtain ⟨e1, e2⟩ := p
    rw [hf] at h
    obtain ⟨h1, h2⟩ := findPair_mem hf
    injection h with h'
    subst h'
    have l1 : (l.erase e1).length + 1 = l.length := length_erase_mem h1
    have l2 : ((l.erase e1).erase e2).length + 1 = (l.erase e1).length :=
      length_erase_mem h2
    simp only [List.length_append, List.length_cons, List.length_nil]
    omega

theorem mergeFuel_stable : ∀ (n : Nat) (l : List (Int × Int)), l.length ≤ n →
    findPair (mergeFuel n l) = none := by
  intro n
  induction n with
  | zero =>
    intro l hl
    have : l = [] := List.length_eq_zero.mp (Nat.le_zero.mp hl)
    subst this
    rfl
  | succ n ih =>
    intro l hl
    rw [mergeFuel]
    cases hs : mergeStep l with
    | none =>
      unfold mergeStep at hs
      cases hf : findPair l with
      | none => rfl
      | some p => obtain ⟨e1, e2⟩ := p; rw [hf] at hs; exact absurd hs (by simp)
    | some l' =>
      have := mergeStep_length hs
      exact ih l' (by omega)

/-- Claim C8: `merge_overlapping_entities` terminates on every finite input
list — each merge step strictly shrinks the list, so the rescan loop always
reaches a state in which no pair of remaining intervals overlaps. -/
theorem merge_overlapping_entities_terminates_stable (entities : List (Int × Int)) :
    findPair (merge_overlapping_entities entities) = none :=
  mergeFuel_stable entities.length entities (Nat.le_refl _)

/-- Claim C5: on every permutation of `[(0,5), (3,8), (20,25)]` the merge
returns a list whose interval set is exactly `{(0,8), (20,25)}`. -/
theorem merge_overlapping_entities_permutation_invariant_example :
    (merge_overlapping_entities [(0,5),(3,8),(20,25)]).Perm [(0,8),(20,25)] ∧
    (merge_overlapping_entities [(0,5),(20,25),(3,8)]).Perm [(0,8),(20,25)] ∧
    (merge_overlapping_entities [(3,8),(0,5),(20,25)]).Perm [(0,8),(20,25)] ∧
    (merge_overlapping_entities [(3,8),(20,25),(0,5)]).Perm [(0,8),(20,25)] ∧
    (merge_overlapping_entities [(20,25),(0,5),(3,8)]).Perm [(0,8),(20,25)] ∧
    (merge_overlapping_entities [(20,25),(3,8),(0,5)]).Perm [(0,8),(20,25)] := by
  decide

/-! ### The `overlaps` predicate (C4) -/

/-- Claim C4, counterexample: when `a = (0,10)` fully contains `b = (2,5)`,
`a.overlaps(b)` is `True`, not `False` as claimed — the predicate's first
disjunct fires on every containment with `b.start < a.stop`. -/
theorem overlaps_true_on_containment :
    Entity.contains ⟨0, 10, "X"⟩ ⟨2, 5, "Y"⟩ = true ∧
    Entity.overlaps ⟨0, 10, "X"⟩ ⟨2, 5, "Y"⟩ = true := by
  decide

/-- Claim C4, amended: for spans with `start < end`, `a.overlaps(b)` holds
iff the intervals intersect and `b` does not strictly contain `a` on both
sides; in particular it is true (not false) whenever `a` contains `b`. -/
theorem overlaps_iff_intersect_not_strictly_contained (a b : Entity)
    (ha : a.start < a.stop) (hb : b.start < b.stop) :
    (a.overlaps b = true ↔
      (max a.start b.start < min a.stop b.stop ∧
        ¬(b.start < a.start ∧ a.stop < b.stop))) ∧
    (a.contains b = true → a.overlaps b = true) := by
  simp only [Entity.overlaps, Entity.contains, Bool.or_eq_true, Bool.and_eq_true,
    decide_eq_true_eq, ge_iff_le]
  omega

theorem overlaps_iff_intersect_not_strictly_contained_witness :
    ((0 : Int) < 10 ∧ (2 : Int) < 5) ∧
    ((Entity.overlaps ⟨0, 10, "X"⟩ ⟨2, 5, "Y"⟩ = true ↔
      (max (0 : Int) 2 < min (10 : Int) 5 ∧
        ¬((2 : Int) < 0 ∧ (10 : Int) < 5))) ∧
     (Entity.contains ⟨0, 10, "X"⟩ ⟨2, 5, "Y"⟩ = true →
       Entity.overlaps ⟨0, 10, "X"⟩ ⟨2, 5, "Y"⟩ = true)) :=
  ⟨⟨by decide, by decide⟩,
    overlaps_iff_intersect_not_strictly_contained ⟨0, 10, "X"⟩ ⟨2, 5, "Y"⟩
      (by decide) (by decide)⟩

/-! ### Completeness of the early-break overlap scan (C6) -/

theorem takeWhile_overlaps_eq_filter (c : Entity) :
    ∀ rest : List Entity, rest.Pairwise startLE →
      (∀ o ∈ rest, startLE c o) → (∀ o ∈ rest, o.start < o.stop) →
      (rest.takeWhile fun o => c.overlaps o) = rest.filter fun o => c.overlaps o := by
  intro rest
  induction rest with
  | nil => intro _ _ _; rfl
  | cons o rest' ih =>
    intro hpw hle hv
    have hpw' := (List.pairwise_cons.mp hpw).2
    have ho := (List.pairwise_cons.mp hpw).1
    by_cases hov : c.overlaps o = true
    · rw [List.takeWhile_cons, List.filter_cons, hov]
      simp only [if_true]
      rw [ih hpw' (fun x hx => hle x (List.mem_cons_of_mem _ hx))
        (fun x hx => hv x (List.mem_cons_of_mem _ hx))]
    · have hov' : c.overlaps o = false := Bool.eq_false_iff.mpr hov
      rw [List.takeWhile_cons, List.filter_cons, hov']
      simp only [Bool.false_eq_true, if_false]
      have : ∀ y ∈ rest', c.overlaps y = false := by
        intro y hy
        have h1 : c.start ≤ o.start := hle o (List.mem_cons_self _ _)
        have h2 : startLE o y := ho y hy
        have h3 : y.start < y.stop := hv y (List.mem_cons_of_mem _ hy)
        unfold startLE at h2
        rw [Bool.eq_false_iff]
        intro hyt
        apply hov
        simp only [Entity.overlaps, Bool.or_eq_true, Bool.and_eq_true,
          decide_eq_true_eq] at hyt ⊢
        omega
      rw [List.filter_eq_nil_iff.mpr (by intro y hy; simp [this y hy])]

theorem overlapPairs_eq_allOverlapPairs :
    ∀ l : List Entity, l.Pairwise startLE → (∀ o ∈ l, o.start < o.stop) →
      overlapPairs l = allOverlapPairs l := by
  intro l
  induction l with
  | nil => intro _ _; rfl
  | cons c rest ih =>
    intro hpw hv
    rw [overlapPairs, allOverlapPairs]
    have hpc := List.pairwise_cons.mp hpw
    rw [takeWhile_overlaps_eq_filter c rest hpc.2
      (fun o ho => hpc.1 o ho) (fun o ho => hv o (List.mem_cons_of_mem _ ho))]
    rw [ih hpc.2 (fun o ho => hv o (List.mem_cons_of_mem _ ho))]

/-- Claim C6: for spans each satisfying `start < end`, the early break after
the first non-overlapping later span never omits an overlapping pair —
`find_overlapping_entities` returns exactly the pairs `(a, b)` with `a`
preceding `b` in the start-ascending sorted order and `a.overlaps(b)`. -/
theorem find_overlapping_entities_complete (entities : List Entity)
    (hv : ∀ e ∈ entities, e.start < e.stop) :
    find_overlapping_entities entities = findOverlappingEntitiesSpec entities := by
  unfold find_overlapping_entities findOverlappingEntitiesSpec
  apply overlapPairs_eq_allOverlapPairs
  · exact List.sorted_insertionSort startLE entities
  · intro o ho
    exact hv o ((List.perm_insertionSort startLE entities).mem_iff.mp ho)

theorem find_overlapping_entities_complete_witness :
    (∀ e ∈ [Entity.mk 0 5 "X", Entity.mk 3 8 "Y", Entity.mk 6 9 "Z"],
        e.start < e.stop) ∧
    find_overlapping_entities [Entity.mk 0 5 "X", Entity.mk 3 8 "Y", Entity.mk 6 9 "Z"]
      = findOverlappingEntitiesSpec
          [Entity.mk 0 5 "X", Entity.mk 3 8 "Y", Entity.mk 6 9 "Z"] :=
  ⟨by decide,
    find_overlapping_entities_complete
      [Entity.mk 0 5 "X", Entity.mk 3 8 "Y", Entity.mk 6 9 "Z"] (by decide)⟩

/-! ### Dataset filter and merge never perform a cross-map lookup (C9) -/

/-- Claim C9, counterexample: on a dataset whose document id `d1` is present
in `documents` but absent from `entities_per_document`, `filter_entities` and
`merge_datasets` do not fail with a lookup error — neither operation consults
the other map at all; both return totally, preserving the mismatch. -/
theorem filter_merge_mismatch_no_error :
    filter_entities ⟨[("d1", "text")], []⟩ ["X"]
      = InternalBioNerDataset.mk [("d1", "text")] [] ∧
    (merge_datasets [⟨[("d1", "text")], []⟩, ⟨[], []⟩]).documents
      = [("d1", "text")] ∧
    (merge_datasets [⟨[("d1", "text")], []⟩, ⟨[], []⟩]).entities_per_document
      = [] := by
  refine ⟨rfl, rfl, rfl⟩

theorem setKey_keys {α : Type} (k : String) (v : α) :
    ∀ (l : List (String × α)) (id : String),
      (id ∈ dictKeys (setKey l k v) ↔ id ∈ dictKeys l ∨ id = k) := by
  intro l
  induction l with
  | nil => intro id; simp [setKey, dictKeys]
  | cons kv rest ih =>
    intro id
    obtain ⟨k', v'⟩ := kv
    rw [setKey]
    by_cases hk : k' = k
    · subst hk
      simp [dictKeys]
      tauto
    · simp only [hk, if_false]
      simp only [dictKeys, List.map_cons, List.mem_cons] at *
      rw [ih id]
      tauto

theorem updateKeys_keys {α : Type} :
    ∀ (upd base : List (String × α)) (id : String),
      (id ∈ dictKeys (updateKeys base upd) ↔ id ∈ dictKeys base ∨ id ∈ dictKeys upd) := by
  intro upd
  induction upd with
  | nil => intro base id; simp [updateKeys, dictKeys]
  | cons kv rest ih =>
    intro base id
    obtain ⟨k, v⟩ := kv
    have : updateKeys base ((k, v) :: rest) = updateKeys (setKey base k v) rest := rfl
    rw [this, ih, setKey_keys]
    simp [dictKeys]
    tauto

theorem filter_entities_keys (dataset : InternalBioNerDataset) (ts : List String) :
    dictKeys (filter_entities dataset ts).entities_per_document
      = dictKeys dataset.entities_per_document := by
  simp [filter_entities, dictKeys]

/-- Claim C9, amended: `filter_entities` and `merge_datasets` perform no
cross-map lookup and cannot fail; an id present in either map and absent from
the other is passed through with the mismatch intact, in both directions —
neither a lookup error nor a defaulting of the missing side to empty is
produced.  For the merge the mismatch persists as long as the later dataset
does not itself supply the missing side. -/
theorem filter_merge_preserve_mismatch (D1 D2 : InternalBioNerDataset)
    (ts : List String) (id : String) :
    ((filter_entities D1 ts).documents = D1.documents ∧
      dictKeys (filter_entities D1 ts).entities_per_document
        = dictKeys D1.entities_per_document) ∧
    ((id ∈ dictKeys D1.documents → id ∉ dictKeys D1.entities_per_document →
        id ∈ dictKeys (filter_entities D1 ts).documents ∧
        id ∉ dictKeys (filter_entities D1 ts).entities_per_document) ∧
      (id ∈ dictKeys D1.documents → id ∉ dictKeys D1.entities_per_document →
        id ∉ dictKeys D2.entities_per_document →
        id ∈ dictKeys (merge_datasets [D1, D2]).documents ∧
        id ∉ dictKeys (merge_datasets [D1, D2]).entities_per_document)) ∧
    ((id ∈ dictKeys D1.entities_per_document → id ∉ dictKeys D1.documents →
        id ∈ dictKeys (filter_entities D1 ts).entities_per_document ∧
        id ∉ dictKeys (filter_entities D1 ts).documents) ∧
      (id ∈ dictKeys D1.entities_per_document → id ∉ dictKeys D1.documents →
        id ∉ dictKeys D2.documents →
        id ∈ dictKeys (merge_datasets [D1, D2]).entities_per_document ∧
        id ∉ dictKeys (merge_datasets [D1, D2]).documents)) := by
  have hm : merge_datasets [D1, D2]
      = { documents := updateKeys (updateKeys [] D1.documents) D2.documents
          entities_per_document :=
            updateKeys (updateKeys [] D1.entities_per_document)
              D2.entities_per_document } := rfl
  refine ⟨⟨rfl, filter_entities_keys D1 ts⟩, ⟨?_, ?_⟩, ⟨?_, ?_⟩⟩
  · intro hdoc hent
    exact ⟨hdoc, by rw [filter_entities_keys]; exact hent⟩
  · intro hdoc hent h2ent
    rw [hm]
    constructor
    · rw [updateKeys_keys, updateKeys_keys]
      exact Or.inl (Or.inr hdoc)
    · rw [updateKeys_keys, updateKeys_keys]
      rintro ((h | h) | h)
      · simp [dictKeys] at h
      · exact hent h
      · exact h2ent h
  · intro hent hdoc
    exact ⟨by rw [filter_entities_keys]; exact hent, hdoc⟩
  · intro hent hdoc h2doc
    rw [hm]
    constructor
    · rw [updateKeys_keys, updateKeys_keys]
      exact Or.inl (Or.inr hent)
    · rw [updateKeys_keys, updateKeys_keys]
      rintro ((h | h) | h)
      · simp [dictKeys] at h
      · exact hdoc h
      · exact h2doc h

theorem filter_merge_preserve_mismatch_witness :
    ("d1" ∈ dictKeys (InternalBioNerDataset.mk [("d1", "t")] [("d2", [])]).documents ∧
      "d1" ∉ dictKeys (InternalBioNerDataset.mk [("d1", "t")]
        [("d2", [])]).entities_per_document ∧
      "d2" ∈ dictKeys (InternalBioNerDataset.mk [("d1", "t")]
        [("d2", [])]).entities_per_document ∧
      "d2" ∉ dictKeys (InternalBioNerDataset.mk [("d1", "t")] [("d2", [])]).documents ∧
      "d1" ∉ dictKeys (InternalBioNerDataset.mk [] []).entities_per_document ∧
      "d2" ∉ dictKeys (InternalBioNerDataset.mk [] []).documents) ∧
     ("d1" ∈ dictKeys (filter_entities (InternalBioNerDataset.mk [("d1", "t")]
        [("d2", [])]) ["X"]).documents ∧
      "d1" ∉ dictKeys (filter_entities (InternalBioNerDataset.mk [("d1", "t")]
        [("d2", [])]) ["X"]).entities_per_document) ∧
     ("d1" ∈ dictKeys (merge_datasets [InternalBioNerDataset.mk [("d1", "t")]
          [("d2", [])], InternalBioNerDataset.mk [] []]).documents ∧
      "d1" ∉ dictKeys (merge_datasets [InternalBioNerDataset.mk [("d1", "t")]
          [("d2", [])], InternalBioNerDataset.mk [] []]).entities_per_document) ∧
     ("d2" ∈ dictKeys (filter_entities (InternalBioNerDataset.mk [("d1", "t")]
        [("d2", [])]) ["X"]).entities_per_document ∧
      "d2" ∉ dictKeys (filter_entities (InternalBioNerDataset.mk [("d1", "t")]
        [("d2", [])]) ["X"]).documents) ∧
     ("d2" ∈ dictKeys (merge_datasets [InternalBioNerDataset.mk [("d1", "t")]
          [("d2", [])], InternalBioNerDataset.mk [] []]).entities_per_document ∧
      "d2" ∉ dictKeys (merge_datasets [InternalBioNerDataset.mk [("d1", "t")]
          [("d2", [])], InternalBioNerDataset.mk [] []]).documents) :=
  ⟨⟨by decide, by decide, by decide, by decide, by decide, by decide⟩,
    (filter_merge_preserve_mismatch (InternalBioNerDataset.mk [("d1", "t")]
        [("d2", [])]) (InternalBioNerDataset.mk [] []) ["X"] "d1").2.1.1
      (by decide) (by decide),
    (filter_merge_preserve_mismatch (InternalBioNerDataset.mk [("d1", "t")]
        [("d2", [])]) (InternalBioNerDataset.mk [] []) ["X"] "d1").2.1.2
      (by decide) (by decide) (by decide),
    (filter_merge_preserve_mismatch (InternalBioNerDataset.mk [("d1", "t")]
        [("d2", [])]) (InternalBioNerDataset.mk [] []) ["X"] "d2").2.2.1
      (by decide) (by decide),
    (filter_merge_preserve_mismatch (InternalBioNerDataset.mk [("d1", "t")]
        [("d2", [])]) (InternalBioNerDataset.mk [] []) ["X"] "d2").2.2.2
      (by decide) (by decide) (by decide)⟩

/-! ### The CoNLL writer (C3, C10) -/

/-- Claim C3: for the one-sentence document `"A B C"` with tokens
`["A","B","C"]` at offsets `[0,2,4]` and the single span `(0,3,"FOO")`, the
projector emits exactly `("A","B-FOO")`, `("B","I-FOO")`, `("C","O")` in that
order, followed by one blank sentence-separator record. -/
theorem write_to_conll_projection_roundtrip :
    writeDocument (fun _ => (["A", "B", "C"], [0, 2, 4]))
      (fun _ => (["A B C"], [0])) "A B C" [⟨0, 3, "FOO"⟩]
      = some [ConllRec.line "A" "B-FOO", ConllRec.line "B" "I-FOO",
          ConllRec.line "C" "O", ConllRec.blank] := by
  rfl

theorem writeDocument_nil_entities
    (tokenizer sentence_splitter : String → List String × List Int)
    (document_text : String) :
    writeDocument tokenizer sentence_splitter document_text [] = none := rfl

theorem writeDocs_none_of_empty_entities
    (tokenizer sentence_splitter : String → List String × List Int)
    (epd : List (String × List Entity)) (id text : String)
    (hlkp : epd.lookup id = some []) :
    ∀ docs : List (String × String), (id, text) ∈ docs →
      writeDocs tokenizer sentence_splitter epd docs = none := by
  intro docs
  induction docs with
  | nil => intro h; cases h
  | cons dt rest ih =>
    intro hmem
    obtain ⟨i, t⟩ := dt
    rcases List.mem_cons.mp hmem with he | hm
    · injection he with hi ht
      subst hi
      rw [writeDocs, hlkp]
      rfl
    · rw [writeDocs]
      cases hl : List.lookup i epd with
      | none => rfl
      | some ents =>
        dsimp only
        cases hw : writeDocument tokenizer sentence_splitter t ents with
        | none => rfl
        | some recs =>
          dsimp only
          rw [ih hm]

/-- Claim C10: a document whose entity list is empty makes `write_to_conll`
fail — the writer pops the front of the sorted span queue before iterating
any sentence, an `IndexError` on an empty deque (modelled as `none`), so
entity-free documents cannot be projected at all. -/
theorem write_to_conll_empty_entity_list_fails
    (tokenizer sentence_splitter : String → List String × List Int)
    (dataset : InternalBioNerDataset) (id text : String)
    (hmem : (id, text) ∈ dataset.documents)
    (hlkp : dataset.entities_per_document.lookup id = some []) :
    write_to_conll tokenizer sentence_splitter dataset = none :=
  writeDocs_none_of_empty_entities tokenizer sentence_splitter
    dataset.entities_per_document id text hlkp dataset.documents hmem

theorem write_to_conll_empty_entity_list_fails_witness :
    (("d", "A B") ∈ (InternalBioNerDataset.mk [("d", "A B")] [("d", [])]).documents ∧
      (InternalBioNerDataset.mk [("d", "A B")] [("d", [])]).entities_per_document.lookup "d"
        = some []) ∧
    write_to_conll (fun _ => (["A", "B"], [0, 2])) (fun _ => (["A B"], [0]))
      (InternalBioNerDataset.mk [("d", "A B")] [("d", [])]) = none :=
  ⟨⟨by decide, by rfl⟩,
    write_to_conll_empty_entity_list_fails (fun _ => (["A", "B"], [0, 2]))
      (fun _ => (["A B"], [0])) (InternalBioNerDataset.mk [("d", "A B")] [("d", [])])
      "d" "A B" (by decide) (by rfl)⟩

/-! ### Concrete behaviour of `normalize_entity_spans` (C7, and the
counterexamples for C1 and C2) -/

/-- Claim C7: on `[(0,5,"X"), (3,8,"Y")]` normalization keeps the first span
and replaces the partially overlapping second one by `(5,8,"Y")` — the tail
span starts where the earlier span ends and keeps its type. -/
theorem normalize_entity_spans_overlap_shrink :
    normalize_entity_spans [⟨0, 5, "X"⟩, ⟨3, 8, "Y"⟩]
      = [⟨0, 5, "X"⟩, ⟨5, 8, "Y"⟩] := by
  decide

/-- Claim C1, counterexample: for the input `[(0,5,"X"), (5,5,"X")]` — the
second span degenerate, which §3 of the spec admits from producers — both
spans survive normalization and `(0,5).overlaps((5,5))` is `True` via the
predicate's second disjunct, so the output is not pairwise non-overlapping
in the claimed sense (no character offset is shared, showing the claim's
two phrasings also come apart). -/
theorem normalize_entity_spans_overlap_in_output_of_degenerate :
    normalize_entity_spans [⟨0, 5, "X"⟩, ⟨5, 5, "X"⟩]
      = [⟨0, 5, "X"⟩, ⟨5, 5, "X"⟩] ∧
    Entity.overlaps ⟨0, 5, "X"⟩ ⟨5, 5, "X"⟩ = true := by
  constructor
  · decide
  · decide

/-- Claim C2, counterexample: on `[(0,1),(0,2),(1,2),(1,3)]` (all type `"X"`,
all spans with `start < end`) the first pass returns `[(0,1),(2,3),(1,2)]` —
out of order, because a tiling-kept contained span survives at a position
after a shifted span — and the second pass re-sorts it to
`[(0,1),(1,2),(2,3)]`: normalization is not idempotent as a list of
`(start, end, type)` triples. -/
theorem normalize_entity_spans_not_list_idempotent :
    normalize_entity_spans (normalize_entity_spans
        [⟨0, 1, "X"⟩, ⟨0, 2, "X"⟩, ⟨1, 2, "X"⟩, ⟨1, 3, "X"⟩])
      ≠ normalize_entity_spans
        [⟨0, 1, "X"⟩, ⟨0, 2, "X"⟩, ⟨1, 2, "X"⟩, ⟨1, 3, "X"⟩] := by
  decide

/-! ### Basic list lemmas used by the normalization proof -/

theorem sublist_pair_cases {α : Type} {x y z : α} {l : List α}
    (h : [x, y].Sublist (z :: l)) : (x = z ∧ [y].Sublist l) ∨ [x, y].Sublist l := by
  cases h with
  | cons _ h' => exact Or.inr h'
  | cons₂ _ h' => exact Or.inl ⟨rfl, h'⟩

theorem sublist_triple_cases {α : Type} {x y z w : α} {l : List α}
    (h : [x, y, z].Sublist (w :: l)) :
    (x = w ∧ [y, z].Sublist l) ∨ [x, y, z].Sublist l := by
  cases h with
  | cons _ h' => exact Or.inr h'
  | cons₂ _ h' => exact Or.inl ⟨rfl, h'⟩

theorem sublist_single_cases {α : Type} {x z : α} {l : List α}
    (h : [x].Sublist (z :: l)) : x = z ∨ [x].Sublist l := by
  cases h with
  | cons _ h' => exact Or.inr h'
  | cons₂ _ h' => exact Or.inl rfl

theorem triple_sub_12 {α : Type} {x y z : α} {l : List α}
    (h : [x, y, z].Sublist l) : [x, y].Sublist l := by
  have : [x, y].Sublist [x, y, z] := by
    refine List.Sublist.cons₂ _ (List.Sublist.cons₂ _ ?_)
    exact List.nil_sublist _
  exact this.trans h

theorem triple_sub_13 {α : Type} {x y z : α} {l : List α}
    (h : [x, y, z].Sublist l) : [x, z].Sublist l := by
  have : [x, z].Sublist [x, y, z] := by
    refine List.Sublist.cons₂ _ (List.Sublist.cons _ ?_)
    exact List.Sublist.refl _
  exact this.trans h

theorem triple_sub_23 {α : Type} {x y z : α} {l : List α}
    (h : [x, y, z].Sublist l) : [y, z].Sublist l := by
  have : [y, z].Sublist [x, y, z] := List.Sublist.cons _ (List.Sublist.refl _)
  exact this.trans h

theorem two_mem_sublist {α : Type} :
    ∀ (l : List α) (x y : α), x ∈ l → y ∈ l → x ≠ y →
      [x, y].Sublist l ∨ [y, x].Sublist l := by
  intro l
  induction l with
  | nil => intro x y hx _ _; cases hx
  | cons z zs ih =>
    intro x y hx hy hne
    by_cases hxz : x = z
    · subst hxz
      have hyz : y ∈ zs := by
        rcases List.mem_cons.mp hy with h | h
        · exact absurd h.symm hne
        · exact h
      exact Or.inl (List.Sublist.cons₂ _ (List.singleton_sublist.mpr hyz))
    · by_cases hyz : y = z
      · subst hyz
        have hxz' : x ∈ zs := by
          rcases List.mem_cons.mp hx with h | h
          · exact absurd h hxz
          · exact h
        exact Or.inr (List.Sublist.cons₂ _ (List.singleton_sublist.mpr hxz'))
      · have hx' : x ∈ zs := by
          rcases List.mem_cons.mp hx with h | h
          · exact absurd h hxz
          · exact h
        have hy' : y ∈ zs := by
          rcases List.mem_cons.mp hy with h | h
          · exact absurd h hyz
          · exact h
        rcases ih x y hx' hy' hne with h | h
        · exact Or.inl (List.Sublist.cons _ h)
        · exact Or.inr (List.Sublist.cons _ h)

theorem forall2_sublist {α β : Type} {R : α → β → Prop} :
    ∀ {l : List α} {l' s' : List β}, List.Forall₂ R l l' → s'.Sublist l' →
      ∃ s : List α, s.Sublist l ∧ List.Forall₂ R s s' := by
  intro l l' s' hf
  induction hf generalizing s' with
  | nil =>
    intro hs
    have : s' = [] := List.sublist_nil.mp hs
    subst this
    exact ⟨[], List.nil_sublist _, List.Forall₂.nil⟩
  | @cons x y xs ys hxy hxs ih =>
    intro hs
    cases hs with
    | cons _ h' =>
      obtain ⟨s, hsub, hfa⟩ := ih h'
      exact ⟨s, hsub.cons _, hfa⟩
    | cons₂ _ h' =>
      obtain ⟨s, hsub, hfa⟩ := ih h'
      exact ⟨x :: s, hsub.cons₂ _, List.Forall₂.cons hxy hfa⟩

theorem enumFrom_fst_ge {α : Type} :
    ∀ (l : List α) (n p : Nat) (x : α), (p, x) ∈ l.enumFrom n → n ≤ p := by
  intro l
  induction l with
  | nil => intro n p x h; cases h
  | cons y ys ih =>
    intro n p x h
    rcases List.mem_cons.mp h with he | hm
    · injection he with h1 _
      omega
    · have := ih (n + 1) p x hm
      omega

theorem enumFrom_snd_mem {α : Type} :
    ∀ (l : List α) (n p : Nat) (x : α), (p, x) ∈ l.enumFrom n → x ∈ l := by
  intro l
  induction l with
  | nil => intro n p x h; cases h
  | cons y ys ih =>
    intro n p x h
    rcases List.mem_cons.mp h with he | hm
    · injection he with _ h2
      exact h2 ▸ List.mem_cons_self _ _
    · exact List.mem_cons_of_mem _ (ih (n + 1) p x hm)

theorem pairwise_of_sublist_pairs {α : Type} {R : α → α → Prop} :
    ∀ l : List α, (∀ a b : α, [a, b].Sublist l → R a b) → l.Pairwise R := by
  intro l
  induction l with
  | nil => intro _; exact List.Pairwise.nil
  | cons x xs ih =>
    intro h
    refine List.Pairwise.cons ?_ (ih ?_)
    · intro y hy
      exact h x y (List.Sublist.cons₂ _ (List.singleton_sublist.mpr hy))
    · intro a b hab
      exact h a b (hab.cons _)

theorem pairwise_pair {α : Type} {R : α → α → Prop} {l : List α} {a b : α}
    (hp : l.Pairwise R) (h : [a, b].Sublist l) : R a b := by
  induction l with
  | nil => cases List.sublist_nil.mp h
  | cons x xs ih =>
    rcases sublist_pair_cases h with ⟨he, hb⟩ | h' 
    · subst he
      exact (List.pairwise_cons.mp hp).1 b (List.singleton_sublist.mp hb)
    · exact ih (List.pairwise_cons.mp hp).2 h'

/-! ### Characterization of the inner scan -/

theorem tailAll_desc (c : Entity) :
    ∀ xs : List (Option Entity),
      (∀ d : Entity, some d ∈ xs → c.stop ≤ d.start ∨ d.stop ≤ c.start) →
      List.Forall₂ (SlotDesc c) xs (tailAll xs) := by
  intro xs
  induction xs with
  | nil => intro _; exact List.Forall₂.nil
  | cons x xs ih =>
    intro h
    cases x with
    | none =>
      exact List.Forall₂.cons trivial (ih fun d hd => h d (List.mem_cons_of_mem _ hd))
    | some o =>
      refine List.Forall₂.cons ⟨rfl, h o (List.mem_cons_self _ _)⟩ ?_
      exact ih fun d hd => h d (List.mem_cons_of_mem _ hd)

theorem scan_sound (c : Entity) :
    ∀ rest : List (Option Entity),
      (∀ o : Entity, some o ∈ rest → c.start ≤ o.start ∨ o.stop ≤ c.start) →
      (∀ o d : Entity, [some o, some d].Sublist rest → c.stop ≤ o.start →
        c.stop ≤ d.start ∨ d.stop ≤ c.start) →
      (∀ o : Entity, some o ∈ rest → o.start < o.stop) →
      List.Forall₂ (SlotDesc c) rest (scanSlots c rest) := by
  intro rest
  induction rest with
  | nil => intro _ _ _; exact List.Forall₂.nil
  | cons x xs ih =>
    intro h1 h3 hv
    cases x with
    | none =>
      rw [scanSlots]
      refine List.Forall₂.cons trivial ?_
      exact ih (fun o ho => h1 o (List.mem_cons_of_mem _ ho))
        (fun o d hod => h3 o d (hod.cons _))
        (fun o ho => hv o (List.mem_cons_of_mem _ ho))
    | some o =>
      rw [scanSlots]
      by_cases hb : c.is_before o = true
      · simp only [hb, if_true]
        have hcs : c.stop ≤ o.start := by
          simpa [Entity.is_before] using hb
        refine List.Forall₂.cons ⟨rfl, Or.inl hcs⟩ ?_
        refine tailAll_desc c xs ?_
        intro d hd
        exact h3 o d
          (List.Sublist.cons₂ _ (List.singleton_sublist.mpr hd)) hcs
      · simp only [hb, if_false]
        have hrec := ih (fun o' ho' => h1 o' (List.mem_cons_of_mem _ ho'))
          (fun o' d hod => h3 o' d (hod.cons _))
          (fun o' ho' => hv o' (List.mem_cons_of_mem _ ho'))
        have hnb : ¬ c.stop ≤ o.start := by
          simpa [Entity.is_before] using hb
        by_cases hc : c.contains o = true
        · simp only [hc, if_true]
          have hc' := hc
          simp only [Entity.contains, Bool.and_eq_true, decide_eq_true_eq, ge_iff_le] at hc'
          exact List.Forall₂.cons ⟨rfl, hc'.1, hc'.2⟩ hrec
        · simp only [hc, if_false]
          have hc' : ¬(c.start ≤ o.start ∧ o.stop ≤ c.stop) := by
            intro hcc
            exact hc (by
              simp only [Entity.contains, Bool.and_eq_true, decide_eq_true_eq, ge_iff_le]
              exact hcc)
          have h1o := h1 o (List.mem_cons_self _ _)
          have hvo := hv o (List.mem_cons_self _ _)
          by_cases hov : c.overlaps o = true
          · simp only [hov, if_true]
            have hov' := hov
            simp only [Entity.overlaps, Bool.or_eq_true, Bool.and_eq_true,
              decide_eq_true_eq] at hov'
            refine List.Forall₂.cons ⟨rfl, by omega, by omega, by omega⟩ hrec
          · simp only [hov, if_false]
            have hov' : ¬((c.start ≤ o.start ∧ o.start < c.stop) ∨
                (c.start < o.stop ∧ o.stop ≤ c.stop)) := by
              intro hoo
              exact hov (by
                simp only [Entity.overlaps, Bool.or_eq_true, Bool.and_eq_true,
                  decide_eq_true_eq]
                exact hoo)
            refine List.Forall₂.cons ⟨rfl, by omega⟩ hrec

/-- Every recorded contained entity's cell holds that entity in the original
array tail. -/
theorem innerEntities_mem {c : Entity} :
    ∀ {rest : List (Option Entity)} {slots : List Slot},
      List.Forall₂ (SlotDesc c) rest slots →
      ∀ e : Entity, e ∈ innerEntities slots → some e ∈ rest := by
  intro rest slots hf
  induction hf with
  | nil => intro e he; cases he
  | @cons x s xs ss hxs _ ih =>
    intro e he
    cases s with
    | inner e' =>
      cases x with
      | none => exact absurd hxs (by simp [SlotDesc])
      | some o =>
        obtain ⟨heq, _, _⟩ := hxs
        rw [innerEntities] at he
        rcases List.mem_cons.mp he with h | h
        · subst h; rw [heq]; exact List.mem_cons_self _ _
        · exact List.mem_cons_of_mem _ (ih e h)
    | gone => rw [innerEntities] at he; exact List.mem_cons_of_mem _ (ih e he)
    | plain e' => rw [innerEntities] at he; exact List.mem_cons_of_mem _ (ih e he)
    | moved e' => rw [innerEntities] at he; exact List.mem_cons_of_mem _ (ih e he)
    | tail e' => rw [innerEntities] at he; exact List.mem_cons_of_mem _ (ih e he)

/-! ### Tracing surviving cells of the rebuilt tail back to their slots -/

theorem giveIx_congr {er : List Nat} {k : Nat} {a : Entity} {s : Slot}
    {p : Option Nat} {xs full : List Slot}
    (h : innerEntities full = innerEntities xs) :
    GiveIx er xs k a s p → GiveIx er full k a s p := by
  intro hg
  cases s with
  | inner e =>
    cases p with
    | none => exact absurd hg (by simp [GiveIx])
    | some p' =>
      obtain ⟨h1, h2, h3⟩ := hg
      exact ⟨h1, h2, by rw [h]; exact h3⟩
  | gone => cases p <;> exact absurd hg (by simp [GiveIx])
  | plain e => cases p with
    | none => exact hg
    | some _ => exact absurd hg (by simp [GiveIx])
  | tail e => cases p with
    | none => exact hg
    | some _ => exact absurd hg (by simp [GiveIx])
  | moved e => cases p with
    | none => exact hg
    | some _ => exact absurd hg (by simp [GiveIx])

theorem giveIx_lift_inner {er : List Nat} {k : Nat} {a : Entity} {s : Slot}
    {p : Option Nat} {xs : List Slot} {e₀ : Entity} :
    GiveIx er xs (k + 1) a s p → GiveIx er (Slot.inner e₀ :: xs) k a s p := by
  intro hg
  cases s with
  | inner e =>
    cases p with
    | none => exact absurd hg (by simp [GiveIx])
    | some p' =>
      obtain ⟨h1, h2, h3⟩ := hg
      refine ⟨h1, h2, ?_⟩
      show _ ∈ (e₀ :: innerEntities xs).enumFrom k
      rw [List.enumFrom]
      exact List.mem_cons_of_mem _ h3
  | gone => cases p <;> exact absurd hg (by simp [GiveIx])
  | plain e => cases p with
    | none => exact hg
    | some _ => exact absurd hg (by simp [GiveIx])
  | tail e => cases p with
    | none => exact hg
    | some _ => exact absurd hg (by simp [GiveIx])
  | moved e => cases p with
    | none => exact hg
    | some _ => exact absurd hg (by simp [GiveIx])

theorem giveIx_fst_ge {er : List Nat} {k : Nat} {a : Entity} {s : Slot}
    {p : Nat} {xs : List Slot} (hg : GiveIx er xs k a s (some p)) : k ≤ p := by
  cases s with
  | inner e => exact enumFrom_fst_ge _ _ _ _ hg.2.2
  | gone => exact absurd hg (by simp [GiveIx])
  | plain e => exact absurd hg (by simp [GiveIx])
  | tail e => exact absurd hg (by simp [GiveIx])
  | moved e => exact absurd hg (by simp [GiveIx])

theorem applySlots_mem1 {er : List Nat} :
    ∀ (slots : List Slot) (k : Nat) {a : Entity},
      some a ∈ applySlots er slots k →
      ∃ s p, s ∈ slots ∧ GiveIx er slots k a s p := by
  intro slots
  induction slots with
  | nil => intro k a h; cases h
  | cons s₀ xs ih =>
    intro k a h
    cases s₀ with
    | gone =>
      rw [applySlots] at h
      rcases List.mem_cons.mp h with he | hm
      · exact absurd he (by simp)
      · obtain ⟨s, p, hs, hg⟩ := ih k hm
        exact ⟨s, p, List.mem_cons_of_mem _ hs, giveIx_congr rfl hg⟩
    | plain e =>
      rw [applySlots] at h
      rcases List.mem_cons.mp h with he | hm
      · injection he with he'
        exact ⟨Slot.plain e, none, List.mem_cons_self _ _, he'.symm⟩
      · obtain ⟨s, p, hs, hg⟩ := ih k hm
        exact ⟨s, p, List.mem_cons_of_mem _ hs, giveIx_congr rfl hg⟩
    | tail e =>
      rw [applySlots] at h
      rcases List.mem_cons.mp h with he | hm
      · injection he with he'
        exact ⟨Slot.tail e, none, List.mem_cons_self _ _, he'.symm⟩
      · obtain ⟨s, p, hs, hg⟩ := ih k hm
        exact ⟨s, p, List.mem_cons_of_mem _ hs, giveIx_congr rfl hg⟩
    | moved e =>
      rw [applySlots] at h
      rcases List.mem_cons.mp h with he | hm
      · injection he with he'
        exact ⟨Slot.moved e, none, List.mem_cons_self _ _, he'.symm⟩
      · obtain ⟨s, p, hs, hg⟩ := ih k hm
        exact ⟨s, p, List.mem_cons_of_mem _ hs, giveIx_congr rfl hg⟩
    | inner e =>
      rw [applySlots] at h
      by_cases hk : k ∈ er
      · simp only [hk, if_true] at h
        rcases List.mem_cons.mp h with he | hm
        · exact absurd he (by simp)
        · obtain ⟨s, p, hs, hg⟩ := ih (k + 1) hm
          exact ⟨s, p, List.mem_cons_of_mem _ hs, giveIx_lift_inner hg⟩
      · simp only [hk, if_false] at h
        rcases List.mem_cons.mp h with he | hm
        · injection he with he'
          refine ⟨Slot.inner e, some k, List.mem_cons_self _ _, he'.symm, hk, ?_⟩
          show _ ∈ (e :: innerEntities xs).enumFrom k
          rw [List.enumFrom, he']
          exact List.mem_cons_self _ _
        · obtain ⟨s, p, hs, hg⟩ := ih (k + 1) hm
          exact ⟨s, p, List.mem_cons_of_mem _ hs, giveIx_lift_inner hg⟩

theorem applySlots_sub2 {er : List Nat} :
    ∀ (slots : List Slot) (k : Nat) {a b : Entity},
      [some a, some b].Sublist (applySlots er slots k) →
      ∃ s t pa pb, [s, t].Sublist slots ∧ GiveIx er slots k a s pa ∧
        GiveIx er slots k b t pb ∧
        ∀ p q : Nat, pa = some p → pb = some q → p < q := by
  intro slots
  induction slots with
  | nil =>
    intro k a b h
    rw [applySlots] at h
    simp at h
  | cons s₀ xs ih =>
    intro k a b h
    cases s₀ with
    | gone =>
      rw [applySlots] at h
      rcases sublist_pair_cases h with ⟨he, _⟩ | h'
      · exact absurd he (by simp)
      · obtain ⟨s, t, pa, pb, hst, hga, hgb, hord⟩ := ih k h'
        exact ⟨s, t, pa, pb, hst.cons _, giveIx_congr rfl hga, giveIx_congr rfl hgb, hord⟩
    | plain e =>
      rw [applySlots] at h
      rcases sublist_pair_cases h with ⟨he, hb⟩ | h'
      · injection he with he'
        obtain ⟨t, pb, ht, hgb⟩ := applySlots_mem1 xs k (List.singleton_sublist.mp hb)
        refine ⟨Slot.plain e, t, none, pb,
          List.Sublist.cons₂ _ (List.singleton_sublist.mpr ht),
          he'.symm, giveIx_congr rfl hgb, ?_⟩
        intro p q hp _
        exact absurd hp (by simp)
      · obtain ⟨s, t, pa, pb, hst, hga, hgb, hord⟩ := ih k h'
        exact ⟨s, t, pa, pb, hst.cons _, giveIx_congr rfl hga, giveIx_congr rfl hgb, hord⟩
    | tail e =>
      rw [applySlots] at h
      rcases sublist_pair_cases h with ⟨he, hb⟩ | h'
      · injection he with he'
        obtain ⟨t, pb, ht, hgb⟩ := applySlots_mem1 xs k (List.singleton_sublist.mp hb)
        refine ⟨Slot.tail e, t, none, pb,
          List.Sublist.cons₂ _ (List.singleton_sublist.mpr ht),
          he'.symm, giveIx_congr rfl hgb, ?_⟩
        intro p q hp _
        exact absurd hp (by simp)
      · obtain ⟨s, t, pa, pb, hst, hga, hgb, hord⟩ := ih k h'
        exact ⟨s, t, pa, pb, hst.cons _, giveIx_congr rfl hga, giveIx_congr rfl hgb, hord⟩
    | moved e =>
      rw [applySlots] at h
      rcases sublist_pair_cases h with ⟨he, hb⟩ | h'
      · injection he with he'
        obtain ⟨t, pb, ht, hgb⟩ := applySlots_mem1 xs k (List.singleton_sublist.mp hb)
        refine ⟨Slot.moved e, t, none, pb,
          List.Sublist.cons₂ _ (List.singleton_sublist.mpr ht),
          he'.symm, giveIx_congr rfl hgb, ?_⟩
        intro p q hp _
        exact absurd hp (by simp)
      · obtain ⟨s, t, pa, pb, hst, hga, hgb, hord⟩ := ih k h'
        exact ⟨s, t, pa, pb, hst.cons _, giveIx_congr rfl hga, giveIx_congr rfl hgb, hord⟩
    | inner e =>
      rw [applySlots] at h
      by_cases hk : k ∈ er
      · simp only [hk, if_true] at h
        rcases sublist_pair_cases h with ⟨he, _⟩ | h'
        · exact absurd he (by simp)
        · obtain ⟨s, t, pa, pb, hst, hga, hgb, hord⟩ := ih (k + 1) h'
          exact ⟨s, t, pa, pb, hst.cons _, giveIx_lift_inner hga,
            giveIx_lift_inner hgb, hord⟩
      · simp only [hk, if_false] at h
        rcases sublist_pair_cases h with ⟨he, hb⟩ | h'
        · injection he with he'
          obtain ⟨t, pb, ht, hgb⟩ :=
            applySlots_mem1 xs (k + 1) (List.singleton_sublist.mp hb)
          refine ⟨Slot.inner e, t, some k, pb,
            List.Sublist.cons₂ _ (List.singleton_sublist.mpr ht),
            ⟨he'.symm, hk, ?_⟩, giveIx_lift_inner hgb, ?_⟩
          · show _ ∈ (e :: innerEntities xs).enumFrom k
            rw [List.enumFrom, he']
            exact List.mem_cons_self _ _
          · intro p q hp hq
            injection hp with hp'
            subst hp'
            subst hq
            have := giveIx_fst_ge hgb
            omega
        · obtain ⟨s, t, pa, pb, hst, hga, hgb, hord⟩ := ih (k + 1) h'
          exact ⟨s, t, pa, pb, hst.cons _, giveIx_lift_inner hga,
            giveIx_lift_inner hgb, hord⟩

theorem applySlots_sub3 {er : List Nat} :
    ∀ (slots : List Slot) (k : Nat) {a b c' : Entity},
      [some a, some b, some c'].Sublist (applySlots er slots k) →
      ∃ s t u pa pb pc, [s, t, u].Sublist slots ∧ GiveIx er slots k a s pa ∧
        GiveIx er slots k b t pb ∧ GiveIx er slots k c' u pc ∧
        (∀ p q : Nat, pa = some p → pb = some q → p < q) ∧
        (∀ p q : Nat, pa = some p → pc = some q → p < q) ∧
        (∀ p q : Nat, pb = some p → pc = some q → p < q) := by
  intro slots
  induction slots with
  | nil =>
    intro k a b c' h
    rw [applySlots] at h
    simp at h
  | cons s₀ xs ih =>
    intro k a b c' h
    cases s₀ with
    | gone =>
      rw [applySlots] at h
      rcases sublist_triple_cases h with ⟨he, _⟩ | h'
      · exact absurd he (by simp)
      · obtain ⟨s, t, u, pa, pb, pc, hstu, hga, hgb, hgc, h12, h13, h23⟩ := ih k h'
        exact ⟨s, t, u, pa, pb, pc, hstu.cons _, giveIx_congr rfl hga,
          giveIx_congr rfl hgb, giveIx_congr rfl hgc, h12, h13, h23⟩
    | plain e =>
      rw [applySlots] at h
      rcases sublist_triple_cases h with ⟨he, hbc⟩ | h'
      · injection he with he'
        obtain ⟨t, u, pb, pc, htu, hgb, hgc, h23⟩ := applySlots_sub2 xs k hbc
        refine ⟨Slot.plain e, t, u, none, pb, pc,
          List.Sublist.cons₂ _ htu, he'.symm, giveIx_congr rfl hgb,
          giveIx_congr rfl hgc, ?_, ?_, h23⟩
        · intro p q hp _; exact absurd hp (by simp)
        · intro p q hp _; exact absurd hp (by simp)
      · obtain ⟨s, t, u, pa, pb, pc, hstu, hga, hgb, hgc, h12, h13, h23⟩ := ih k h'
        exact ⟨s, t, u, pa, pb, pc, hstu.cons _, giveIx_congr rfl hga,
          giveIx_congr rfl hgb, giveIx_congr rfl hgc, h12, h13, h23⟩
    | tail e =>
      rw [applySlots] at h
      rcases sublist_triple_cases h with ⟨he, hbc⟩ | h'
      · injection he with he'
        obtain ⟨t, u, pb, pc, htu, hgb, hgc, h23⟩ := applySlots_sub2 xs k hbc
        refine ⟨Slot.tail e, t, u, none, pb, pc,
          List.Sublist.cons₂ _ htu, he'.symm, giveIx_congr rfl hgb,
          giveIx_congr rfl hgc, ?_, ?_, h23⟩
        · intro p q hp _; exact absurd hp (by simp)
        · intro p q hp _; exact absurd hp (by simp)
      · obtain ⟨s, t, u, pa, pb, pc, hstu, hga, hgb, hgc, h12, h13, h23⟩ := ih k h'
        exact ⟨s, t, u, pa, pb, pc, hstu.cons _, giveIx_congr rfl hga,
          giveIx_congr rfl hgb, giveIx_congr rfl hgc, h12, h13, h23⟩
    | moved e =>
      rw [applySlots] at h
      rcases sublist_triple_cases h with ⟨he, hbc⟩ | h'
      · injection he with he'
        obtain ⟨t, u, pb, pc, htu, hgb, hgc, h23⟩ := applySlots_sub2 xs k hbc
        refine ⟨Slot.moved e, t, u, none, pb, pc,
          List.Sublist.cons₂ _ htu, he'.symm, giveIx_congr rfl hgb,
          giveIx_congr rfl hgc, ?_, ?_, h23⟩
        · intro p q hp _; exact absurd hp (by simp)
        · intro p q hp _; exact absurd hp (by simp)
      · obtain ⟨s, t, u, pa, pb, pc, hstu, hga, hgb, hgc, h12, h13, h23⟩ := ih k h'
        exact ⟨s, t, u, pa, pb, pc, hstu.cons _, giveIx_congr rfl hga,
          giveIx_congr rfl hgb, giveIx_congr rfl hgc, h12, h13, h23⟩
    | inner e =>
      rw [applySlots] at h
      by_cases hk : k ∈ er
      · simp only [hk, if_true] at h
        rcases sublist_triple_cases h with ⟨he, _⟩ | h'
        · exact absurd he (by simp)
        · obtain ⟨s, t, u, pa, pb, pc, hstu, hga, hgb, hgc, h12, h13, h23⟩ :=
            ih (k + 1) h'
          exact ⟨s, t, u, pa, pb, pc, hstu.cons _, giveIx_lift_inner hga,
            giveIx_lift_inner hgb, giveIx_lift_inner hgc, h12, h13, h23⟩
      · simp only [hk, if_false] at h
        rcases sublist_triple_cases h with ⟨he, hbc⟩ | h'
        · injection he with he'
          obtain ⟨t, u, pb, pc, htu, hgb, hgc, h23⟩ := applySlots_sub2 xs (k + 1) hbc
          have hgeb : ∀ q : Nat, pb = some q → k < q := by
            intro q hq
            subst hq
            have := giveIx_fst_ge hgb
            omega
          have hgec : ∀ q : Nat, pc = some q → k < q := by
            intro q hq
            subst hq
            have := giveIx_fst_ge hgc
            omega
          refine ⟨Slot.inner e, t, u, some k, pb, pc,
            List.Sublist.cons₂ _ htu, ⟨he'.symm, hk, ?_⟩,
            giveIx_lift_inner hgb, giveIx_lift_inner hgc, ?_, ?_, h23⟩
          · show _ ∈ (e :: innerEntities xs).enumFrom k
            rw [List.enumFrom, he']
            exact List.mem_cons_self _ _
          · intro p q hp hq
            injection hp with hp'
            subst hp'
            exact hgeb q hq
          · intro p q hp hq
            injection hp with hp'
            subst hp'
            exact hgec q hq
        · obtain ⟨s, t, u, pa, pb, pc, hstu, hga, hgb, hgc, h12, h13, h23⟩ :=
            ih (k + 1) h'
          exact ⟨s, t, u, pa, pb, pc, hstu.cons _, giveIx_lift_inner hga,
            giveIx_lift_inner hgb, giveIx_lift_inner hgc, h12, h13, h23⟩

/-! ### The greedy tiling keeps pairwise strongly-disjoint contained spans -/

theorem greedy_kept_sound :
    ∀ (l : List (Nat × Entity)) (cur : Entity),
      (∀ pr ∈ l, (pr.2).start < (pr.2).stop) →
      ∀ (p : Nat) (e : Entity), (p, e) ∈ l → p ∉ greedyErase cur l →
        cur.stop ≤ e.start := by
  intro l
  induction l with
  | nil => intro _ _ p e hm; cases hm
  | cons qf rs ih =>
    intro cur hv p e hm hk
    obtain ⟨q, f⟩ := qf
    rw [greedyErase] at hk
    by_cases hb : cur.is_before f = true
    · simp only [hb, if_true] at hk
      have hcf : cur.stop ≤ f.start := by simpa [Entity.is_before] using hb
      rcases List.mem_cons.mp hm with he | hm'
      · injection he with h1 h2
        subst h2
        exact hcf
      · have hrec := ih f (fun pr hpr => hv pr (List.mem_cons_of_mem _ hpr)) p e hm' hk
        have hfv : f.start < f.stop := hv (q, f) (List.mem_cons_self _ _)
        omega
    · simp only [hb, if_false] at hk
      have hk1 : p ≠ q := fun hpq => hk (hpq ▸ List.mem_cons_self _ _)
      have hk2 : p ∉ greedyErase cur rs := fun hmm => hk (List.mem_cons_of_mem _ hmm)
      rcases List.mem_cons.mp hm with he | hm'
      · injection he with h1 _
        exact absurd h1 hk1
      · exact ih cur (fun pr hpr => hv pr (List.mem_cons_of_mem _ hpr)) p e hm' hk2

theorem greedy_chain2 :
    ∀ (l : List (Nat × Entity)) (cur : Entity),
      (∀ pr ∈ l, (pr.2).start < (pr.2).stop) →
      ∀ x y : Nat × Entity, [x, y].Sublist l →
        x.1 ∉ greedyErase cur l → y.1 ∉ greedyErase cur l →
        (x.2).stop ≤ (y.2).start := by
  intro l
  induction l with
  | nil => intro _ _ x y hs; cases List.sublist_nil.mp hs
  | cons qf rs ih =>
    intro cur hv x y hs hx hy
    obtain ⟨q, f⟩ := qf
    rw [greedyErase] at hx hy
    by_cases hb : cur.is_before f = true
    · simp only [hb, if_true] at hx hy
      rcases sublist_pair_cases hs with ⟨he, hy'⟩ | hs'
      · subst he
        exact greedy_kept_sound rs f
          (fun pr hpr => hv pr (List.mem_cons_of_mem _ hpr)) y.1 y.2
          (by simpa using List.singleton_sublist.mp hy') hy
      · exact ih f (fun pr hpr => hv pr (List.mem_cons_of_mem _ hpr)) x y hs' hx hy
    · simp only [hb, if_false] at hx hy
      rcases sublist_pair_cases hs with ⟨he, _⟩ | hs'
      · subst he
        exact (hx (List.mem_cons_self _ _)).elim
      · have hx2 : x.1 ∉ greedyErase cur rs :=
          fun hmm => hx (List.mem_cons_of_mem _ hmm)
        have hy2 : y.1 ∉ greedyErase cur rs :=
          fun hmm => hy (List.mem_cons_of_mem _ hmm)
        exact ih cur (fun pr hpr => hv pr (List.mem_cons_of_mem _ hpr)) x y hs' hx2 hy2

theorem keptPairs_strong (e0 : Entity) (p0 : Nat) (restOccs : List (Nat × Entity))
    (hvalid : ∀ pr ∈ (p0, e0) :: restOccs, (pr.2).start < (pr.2).stop) :
    ∀ (p q : Nat) (a b : Entity),
      (p, a) ∈ (p0, e0) :: restOccs → (q, b) ∈ (p0, e0) :: restOccs → p ≠ q →
      p ∉ greedyErase e0 restOccs → q ∉ greedyErase e0 restOccs →
      a.stop ≤ b.start ∨ b.stop ≤ a.start := by
  intro p q a b hpa hqb hpq hpk hqk
  have hvrest : ∀ pr ∈ restOccs, (pr.2).start < (pr.2).stop :=
    fun pr hpr => hvalid pr (List.mem_cons_of_mem _ hpr)
  rcases List.mem_cons.mp hpa with hea | hma
  · rcases List.mem_cons.mp hqb with heb | hmb
    · injection hea with h1 _
      injection heb with h2 _
      exact absurd (h1.trans h2.symm) hpq
    · injection hea with _ h2
      rw [h2]
      exact Or.inl (greedy_kept_sound restOccs e0 hvrest q b hmb hqk)
  · rcases List.mem_cons.mp hqb with heb | hmb
    · injection heb with _ h2
      rw [h2]
      exact Or.inr (greedy_kept_sound restOccs e0 hvrest p a hma hpk)
    · have hne : (p, a) ≠ (q, b) := by
        intro he
        injection he with h1 _
        exact hpq h1
      rcases two_mem_sublist restOccs (p, a) (q, b) hma hmb hne with hs | hs
      · exact Or.inl (greedy_chain2 restOccs e0 hvrest (p, a) (q, b) hs hpk hqk)
      · exact Or.inr (greedy_chain2 restOccs e0 hvrest (q, b) (p, a) hs hqk hpk)

/-! ### Branch-independent facts about the conflict-resolution decision -/

theorem passDecision_zero {slots : List Slot}
    (h : (innerEntities slots).enum = []) : passDecision slots = (true, []) := by
  unfold passDecision
  rw [h]

theorem passDecision_one {slots : List Slot} {x0 : Nat × Entity}
    (h : (innerEntities slots).enum = [x0]) : passDecision slots = (true, [0]) := by
  unfold passDecision
  rw [h]

theorem passDecision_many {slots : List Slot} {x0 x1 : Nat × Entity}
    {xr : List (Nat × Entity)} {p0 : Nat} {e0 : Entity} {ro : List (Nat × Entity)}
    (h : (innerEntities slots).enum = x0 :: x1 :: xr)
    (hs : List.insertionSort occLE (x0 :: x1 :: xr) = (p0, e0) :: ro) :
    passDecision slots = (false, greedyErase e0 ro) := by
  unfold passDecision
  rw [h]
  dsimp only
  rw [hs]

theorem enum_singleton_fst {α : Type} :
    ∀ (l : List α) (x : Nat × α), l.enum = [x] → x.1 = 0 := by
  intro l x h
  cases l with
  | nil =>
    have : ([] : List α).enum = [] := rfl
    rw [this] at h
    cases h
  | cons y ys =>
    have he : (y :: ys).enum = (0, y) :: ys.enumFrom 1 := rfl
    rw [he] at h
    injection h with h1 _
    rw [← h1]

/-- If the current span is kept, no contained occurrence survives the erase
list. -/
theorem passDecision_true_all_erased (slots : List Slot)
    (h : (passDecision slots).1 = true) :
    ∀ (p : Nat) (a : Entity), (p, a) ∈ (innerEntities slots).enum →
      p ∈ (passDecision slots).2 := by
  intro p a hm
  cases henum : (innerEntities slots).enum with
  | nil => rw [henum] at hm; cases hm
  | cons x0 xr =>
    cases xr with
    | nil =>
      have hd := passDecision_one henum
      rw [henum] at hm
      rw [hd]
      rcases List.mem_cons.mp hm with he | hm'
      · have h0 : x0.1 = 0 := enum_singleton_fst _ _ henum
        have hp : p = x0.1 := by rw [← he]
        simp [hp, h0]
      · cases hm'
    | cons x1 xr' =>
      cases hsort : List.insertionSort occLE (x0 :: x1 :: xr') with
      | nil =>
        have hperm := List.perm_insertionSort occLE (x0 :: x1 :: xr')
        rw [hsort] at hperm
        have := hperm.length_eq
        simp at this
      | cons y0 ro =>
        obtain ⟨p0, e0⟩ := y0
        have hd := passDecision_many henum hsort
        rw [hd] at h
        simp at h

/-- Any two distinct surviving contained occurrences hold strongly disjoint
spans (the greedy tiling guarantee). -/
theorem passDecision_kept_disj (slots : List Slot)
    (hval : ∀ e ∈ innerEntities slots, e.start < e.stop) :
    ∀ (p q : Nat) (a b : Entity), (p, a) ∈ (innerEntities slots).enum →
      (q, b) ∈ (innerEntities slots).enum → p ≠ q →
      p ∉ (passDecision slots).2 → q ∉ (passDecision slots).2 →
      a.stop ≤ b.start ∨ b.stop ≤ a.start := by
  intro p q a b hpa hqb hpq hpk hqk
  cases henum : (innerEntities slots).enum with
  | nil => rw [henum] at hpa; cases hpa
  | cons x0 xr =>
    cases xr with
    | nil =>
      rw [henum] at hpa hqb
      rcases List.mem_cons.mp hpa with he | hm'
      · rcases List.mem_cons.mp hqb with he' | hm''
        · have hp : p = x0.1 := by rw [← he]
          have hq : q = x0.1 := by rw [← he']
          exact absurd (hp.trans hq.symm) hpq
        · cases hm''
      · cases hm'
    | cons x1 xr' =>
      cases hsort : List.insertionSort occLE (x0 :: x1 :: xr') with
      | nil =>
        have hperm := List.perm_insertionSort occLE (x0 :: x1 :: xr')
        rw [hsort] at hperm
        have := hperm.length_eq
        simp at this
      | cons y0 ro =>
        obtain ⟨p0, e0⟩ := y0
        have hd := passDecision_many henum hsort
        rw [hd] at hpk hqk
        rw [henum] at hpa hqb
        have hperm := List.perm_insertionSort occLE (x0 :: x1 :: xr')
        rw [hsort] at hperm
        have hpa' : (p, a) ∈ ((p0, e0) :: ro) := hperm.mem_iff.mpr hpa
        have hqb' : (q, b) ∈ ((p0, e0) :: ro) := hperm.mem_iff.mpr hqb
        have hval' : ∀ pr ∈ (p0, e0) :: ro, (pr.2).start < (pr.2).stop := by
          intro pr hpr
          have hmo : pr ∈ (x0 :: x1 :: xr') := hperm.mem_iff.mp hpr
          have hms : pr.2 ∈ innerEntities slots := by
            obtain ⟨pp, ee⟩ := pr
            refine enumFrom_snd_mem _ 0 pp ee ?_
            show _ ∈ (innerEntities slots).enum
            rw [henum]
            exact hmo
          exact hval _ hms
        exact keptPairs_strong e0 p0 ro hval' p q a b hpa' hqb' hpq hpk hqk
/-- From how a surviving cell arose (`GiveIx`) and what the scan recorded
about its slot (`SlotDesc`), recover the original cell value and the
arithmetic description of the pass. -/
theorem give_desc_to_pass (c : Entity) {er : List Nat} {full : List Slot}
    {k : Nat} {a : Entity} {s : Slot} {pa : Option Nat} {x₀ : Option Entity}
    (hg : GiveIx er full k a s pa) (hd : SlotDesc c x₀ s) :
    ∃ oa : Entity, x₀ = some oa ∧
      ((pa = none ∧ PassDescB c a oa false) ∨
        (∃ p : Nat, pa = some p ∧ PassDescB c a oa true ∧ p ∉ er ∧
          (p, a) ∈ (innerEntities full).enumFrom k)) := by
  cases s with
  | gone => cases pa <;> exact absurd hg (by simp [GiveIx])
  | plain e =>
    cases pa with
    | some _ => exact absurd hg (by simp [GiveIx])
    | none =>
      have hea : e = a := hg
      cases x₀ with
      | none => exact absurd hd (by simp [SlotDesc])
      | some o =>
        obtain ⟨heo, hstop⟩ := hd
        have hao : a = o := hea ▸ heo
        refine ⟨o, rfl, Or.inl ⟨rfl, ?_⟩⟩
        rw [PassDescB]
        simp only [Bool.false_eq_true, if_false]
        exact Or.inl ⟨by rw [hao], by rw [hao], by rw [hao]; exact hstop⟩
  | tail e =>
    cases pa with
    | some _ => exact absurd hg (by simp [GiveIx])
    | none =>
      have hea : e = a := hg
      cases x₀ with
      | none => exact absurd hd (by simp [SlotDesc])
      | some o =>
        obtain ⟨heo, hdisj⟩ := hd
        have hao : a = o := hea ▸ heo
        refine ⟨o, rfl, Or.inl ⟨rfl, ?_⟩⟩
        rw [PassDescB]
        simp only [Bool.false_eq_true, if_false]
        refine Or.inr (Or.inl ⟨by rw [hao], by rw [hao], ?_⟩)
        rw [hao]
        exact hdisj
  | moved m =>
    cases pa with
    | some _ => exact absurd hg (by simp [GiveIx])
    | none =>
      have hea : m = a := hg
      cases x₀ with
      | none => exact absurd hd (by simp [SlotDesc])
      | some o =>
        obtain ⟨hm, h1, h2, h3⟩ := hd
        have hstart : a.start = c.stop := by rw [← hea, hm]
        have hstop : a.stop = o.stop := by rw [← hea, hm]
        refine ⟨o, rfl, Or.inl ⟨rfl, ?_⟩⟩
        rw [PassDescB]
        simp only [Bool.false_eq_true, if_false]
        exact Or.inr (Or.inr ⟨hstart, hstop, h1, h2, h3⟩)
  | inner e =>
    cases pa with
    | none => exact absurd hg (by simp [GiveIx])
    | some p =>
      obtain ⟨hea, hpk, hpm⟩ := hg
      cases x₀ with
      | none => exact absurd hd (by simp [SlotDesc])
      | some o =>
        obtain ⟨heo, h1, h2⟩ := hd
        have hao : a = o := hea ▸ heo
        refine ⟨o, rfl, Or.inr ⟨p, rfl, ?_, hpk, hpm⟩⟩
        rw [PassDescB]
        simp only [if_true]
        exact ⟨by rw [hao], by rw [hao], by rw [hao]; exact h1, by rw [hao]; exact h2⟩

/-! ### The master description of one pass -/

theorem pass_scan_desc (c : Entity) (rest : List (Option Entity))
    (h1 : Inv1 (some c :: rest)) (h3 : Inv3 (some c :: rest))
    (hv : ValidL (some c :: rest)) :
    List.Forall₂ (SlotDesc c) rest (scanSlots c rest) := by
  apply scan_sound
  · intro o ho
    exact h1 c o (List.Sublist.cons₂ _ (List.singleton_sublist.mpr ho))
  · intro o d hod hco
    exact h3 c o d (List.Sublist.cons₂ _ hod) hco
  · intro o ho
    exact hv o (List.mem_cons_of_mem _ ho)

theorem pair_sublist_mem₁ {α : Type} {x y : α} {l : List α}
    (h : [x, y].Sublist l) : x ∈ l :=
  h.subset (List.mem_cons_self _ _)

theorem pair_sublist_mem₂ {α : Type} {x y : α} {l : List α}
    (h : [x, y].Sublist l) : y ∈ l :=
  h.subset (List.mem_cons_of_mem _ (List.mem_cons_self _ _))

theorem triple_sublist_mem₁ {α : Type} {x y z : α} {l : List α}
    (h : [x, y, z].Sublist l) : x ∈ l :=
  h.subset (List.mem_cons_self _ _)

theorem triple_sublist_mem₂ {α : Type} {x y z : α} {l : List α}
    (h : [x, y, z].Sublist l) : y ∈ l :=
  h.subset (List.mem_cons_of_mem _ (List.mem_cons_self _ _))

theorem triple_sublist_mem₃ {α : Type} {x y z : α} {l : List α}
    (h : [x, y, z].Sublist l) : z ∈ l :=
  h.subset (List.mem_cons_of_mem _ (List.mem_cons_of_mem _ (List.mem_cons_self _ _)))

theorem passDescB_false {c a oa : Entity} :
    PassDescB c a oa false ↔
      ((a.start = oa.start ∧ a.stop = oa.stop ∧ a.stop ≤ c.start) ∨
        (a.start = oa.start ∧ a.stop = oa.stop ∧
          (c.stop ≤ a.start ∨ a.stop ≤ c.start)) ∨
        (a.start = c.stop ∧ a.stop = oa.stop ∧
          c.start ≤ oa.start ∧ oa.start < c.stop ∧ c.stop < oa.stop)) := by
  rw [PassDescB]
  simp

theorem passDescB_true {c a oa : Entity} :
    PassDescB c a oa true ↔
      (a.start = oa.start ∧ a.stop = oa.stop ∧ c.start ≤ a.start ∧ a.stop ≤ c.stop) := by
  rw [PassDescB]
  simp

/-- The validity of all recorded contained entities, needed by the greedy
tiling guarantee. -/
theorem inner_valid (c : Entity) {rest : List (Option Entity)}
    (hscan : List.Forall₂ (SlotDesc c) rest (scanSlots c rest))
    (hv : ValidL (some c :: rest)) :
    ∀ e ∈ innerEntities (scanSlots c rest), e.start < e.stop := by
  intro e he
  exact hv e (List.mem_cons_of_mem _ (innerEntities_mem hscan e he))

theorem pass_sub2 (c : Entity) (rest : List (Option Entity))
    (h1 : Inv1 (some c :: rest)) (h3 : Inv3 (some c :: rest))
    (hv : ValidL (some c :: rest)) {a b : Entity}
    (hab : [some a, some b].Sublist (passRest c rest).2) :
    ∃ (oa ob : Entity) (ia ib : Bool), [some oa, some ob].Sublist rest ∧
      PassDescB c a oa ia ∧ PassDescB c b ob ib ∧
      (ia = true → ib = true → a.stop ≤ b.start ∨ b.stop ≤ a.start) := by
  have hscan := pass_scan_desc c rest h1 h3 hv
  obtain ⟨s, t, pa, pb, hst, hga, hgb, hord⟩ := applySlots_sub2 _ 0 hab
  obtain ⟨spair, hsub, hfa⟩ := forall2_sublist hscan hst
  cases hfa with
  | cons hx hfa' =>
    cases hfa' with
    | cons hy hnil =>
      cases hnil
      obtain ⟨oa, hxa, hca⟩ := give_desc_to_pass c hga hx
      obtain ⟨ob, hxb, hcb⟩ := give_desc_to_pass c hgb hy
      subst hxa
      subst hxb
      rcases hca with ⟨hpa, hda⟩ | ⟨p, hpa, hda, hpk, hpm⟩
      · rcases hcb with ⟨hpb, hdb⟩ | ⟨q, hpb, hdb, hqk, hqm⟩
        · exact ⟨oa, ob, false, false, hsub, hda, hdb, by simp⟩
        · exact ⟨oa, ob, false, true, hsub, hda, hdb, by simp⟩
      · rcases hcb with ⟨hpb, hdb⟩ | ⟨q, hpb, hdb, hqk, hqm⟩
        · exact ⟨oa, ob, true, false, hsub, hda, hdb, by simp⟩
        · refine ⟨oa, ob, true, true, hsub, hda, hdb, fun _ _ => ?_⟩
          have hlt : p < q := hord p q hpa hpb
          exact passDecision_kept_disj _ (inner_valid c hscan hv) p q a b
            hpm hqm (by omega) hpk hqk

theorem pass_sub3 (c : Entity) (rest : List (Option Entity))
    (h1 : Inv1 (some c :: rest)) (h3 : Inv3 (some c :: rest))
    (hv : ValidL (some c :: rest)) {a o d : Entity}
    (habc : [some a, some o, some d].Sublist (passRest c rest).2) :
    ∃ (oa oo od : Entity) (ia io idd : Bool),
      [some oa, some oo, some od].Sublist rest ∧
      PassDescB c a oa ia ∧ PassDescB c o oo io ∧ PassDescB c d od idd ∧
      (ia = true → idd = true → a.stop ≤ d.start ∨ d.stop ≤ a.start) := by
  have hscan := pass_scan_desc c rest h1 h3 hv
  obtain ⟨s, t, u, pa, pb, pc, hstu, hga, hgb, hgc, h12, h13, h23⟩ :=
    applySlots_sub3 _ 0 habc
  obtain ⟨strip, hsub, hfa⟩ := forall2_sublist hscan hstu
  cases hfa with
  | cons hx hfa' =>
    cases hfa' with
    | cons hy hfa'' =>
      cases hfa'' with
      | cons hz hnil =>
        cases hnil
        obtain ⟨oa, hxa, hca⟩ := give_desc_to_pass c hga hx
        obtain ⟨oo, hxb, hcb⟩ := give_desc_to_pass c hgb hy
        obtain ⟨od, hxc, hcc⟩ := give_desc_to_pass c hgc hz
        subst hxa
        subst hxb
        subst hxc
        rcases hca with ⟨hpa, hda⟩ | ⟨p, hpa, hda, hpk, hpm⟩ <;>
          rcases hcb with ⟨hpb, hdb⟩ | ⟨q, hpb, hdb, hqk, hqm⟩ <;>
            rcases hcc with ⟨hpc, hdc⟩ | ⟨r, hpc, hdc, hrk, hrm⟩
        · exact ⟨oa, oo, od, false, false, false, hsub, hda, hdb, hdc, by simp⟩
        · exact ⟨oa, oo, od, false, false, true, hsub, hda, hdb, hdc, by simp⟩
        · exact ⟨oa, oo, od, false, true, false, hsub, hda, hdb, hdc, by simp⟩
        · exact ⟨oa, oo, od, false, true, true, hsub, hda, hdb, hdc, by simp⟩
        · exact ⟨oa, oo, od, true, false, false, hsub, hda, hdb, hdc, by simp⟩
        · refine ⟨oa, oo, od, true, false, true, hsub, hda, hdb, hdc, fun _ _ => ?_⟩
          have hlt : p < r := h13 p r hpa hpc
          exact passDecision_kept_disj _ (inner_valid c hscan hv) p r a d
            hpm hrm (by omega) hpk hrk
        · exact ⟨oa, oo, od, true, true, false, hsub, hda, hdb, hdc, by simp⟩
        · refine ⟨oa, oo, od, true, true, true, hsub, hda, hdb, hdc, fun _ _ => ?_⟩
          have hlt : p < r := h13 p r hpa hpc
          exact passDecision_kept_disj _ (inner_valid c hscan hv) p r a d
            hpm hrm (by omega) hpk hrk

theorem pass_mem1 (c : Entity) (rest : List (Option Entity))
    (h1 : Inv1 (some c :: rest)) (h3 : Inv3 (some c :: rest))
    (hv : ValidL (some c :: rest)) {e : Entity}
    (he : some e ∈ (passRest c rest).2) :
    ∃ (oe : Entity) (ie : Bool), some oe ∈ rest ∧ PassDescB c e oe ie ∧
      (ie = true → (passRest c rest).1 = none) := by
  have hscan := pass_scan_desc c rest h1 h3 hv
  obtain ⟨s, p, hs, hg⟩ := applySlots_mem1 _ 0 he
  obtain ⟨strip, hsub, hfa⟩ := forall2_sublist hscan (List.singleton_sublist.mpr hs)
  cases hfa with
  | cons hx hnil =>
    cases hnil
    obtain ⟨oe, hxe, hce⟩ := give_desc_to_pass c hg hx
    subst hxe
    rcases hce with ⟨hpe, hde⟩ | ⟨p', hpe, hde, hpk, hpm⟩
    · exact ⟨oe, false, List.singleton_sublist.mp hsub, hde, by simp⟩
    · refine ⟨oe, true, List.singleton_sublist.mp hsub, hde, fun _ => ?_⟩
      show (if (passDecision (scanSlots c rest)).1 then some c else none) = none
      cases hdec : (passDecision (scanSlots c rest)).1 with
      | false => simp
      | true =>
        exact absurd (passDecision_true_all_erased _ hdec p' e hpm) hpk

/-! ### One pass preserves the array invariant -/

theorem pass_inv1 (c : Entity) (rest : List (Option Entity))
    (h1 : Inv1 (some c :: rest)) (h3 : Inv3 (some c :: rest))
    (hv : ValidL (some c :: rest)) : Inv1 (passRest c rest).2 := by
  intro a b hab
  obtain ⟨oa, ob, ia, ib, hsub, hda, hdb, hcombo⟩ := pass_sub2 c rest h1 h3 hv hab
  have hold : oa.start ≤ ob.start ∨ ob.stop ≤ oa.start := h1 oa ob (hsub.cons _)
  have hvc : c.start < c.stop := hv c (List.mem_cons_self _ _)
  have hva : oa.start < oa.stop :=
    hv oa (List.mem_cons_of_mem _ (pair_sublist_mem₁ hsub))
  have hvb : ob.start < ob.stop :=
    hv ob (List.mem_cons_of_mem _ (pair_sublist_mem₂ hsub))
  cases ia <;> cases ib
  · rw [passDescB_false] at hda hdb
    omega
  · rw [passDescB_false] at hda
    rw [passDescB_true] at hdb
    omega
  · rw [passDescB_true] at hda
    rw [passDescB_false] at hdb
    omega
  · rw [passDescB_true] at hda hdb
    have hc := hcombo rfl rfl
    omega

theorem pass_inv3 (c : Entity) (rest : List (Option Entity))
    (h1 : Inv1 (some c :: rest)) (h3 : Inv3 (some c :: rest))
    (hv : ValidL (some c :: rest)) : Inv3 (passRest c rest).2 := by
  intro a o d habc hyp
  obtain ⟨oa, oo, od, ia, io, idd, hsub, hda, hdo, hdd, hcombo⟩ :=
    pass_sub3 c rest h1 h3 hv habc
  have hold1 : oa.start ≤ oo.start ∨ oo.stop ≤ oa.start :=
    h1 oa oo ((triple_sub_12 hsub).cons _)
  have hold2 : oa.start ≤ od.start ∨ od.stop ≤ oa.start :=
    h1 oa od ((triple_sub_13 hsub).cons _)
  have hold3 : oa.stop ≤ oo.start → (oa.stop ≤ od.start ∨ od.stop ≤ oa.start) :=
    fun hh => h3 oa oo od (hsub.cons _) hh
  have hvc : c.start < c.stop := hv c (List.mem_cons_self _ _)
  have hva : oa.start < oa.stop :=
    hv oa (List.mem_cons_of_mem _ (triple_sublist_mem₁ hsub))
  have hvo : oo.start < oo.stop :=
    hv oo (List.mem_cons_of_mem _ (triple_sublist_mem₂ hsub))
  have hvd : od.start < od.stop :=
    hv od (List.mem_cons_of_mem _ (triple_sublist_mem₃ hsub))
  cases ia <;> cases io <;> cases idd
  · rw [passDescB_false] at hda hdo hdd
    omega
  · rw [passDescB_false] at hda hdo
    rw [passDescB_true] at hdd
    omega
  · rw [passDescB_false] at hda hdd
    rw [passDescB_true] at hdo
    omega
  · rw [passDescB_false] at hda
    rw [passDescB_true] at hdo hdd
    omega
  · rw [passDescB_true] at hda
    rw [passDescB_false] at hdo hdd
    omega
  · rw [passDescB_true] at hda hdd
    rw [passDescB_false] at hdo
    have hc := hcombo rfl rfl
    omega
  · rw [passDescB_true] at hda hdo
    rw [passDescB_false] at hdd
    omega
  · rw [passDescB_true] at hda hdo hdd
    have hc := hcombo rfl rfl
    omega

theorem pass_valid (c : Entity) (rest : List (Option Entity))
    (h1 : Inv1 (some c :: rest)) (h3 : Inv3 (some c :: rest))
    (hv : ValidL (some c :: rest)) : ValidL (passRest c rest).2 := by
  intro e he
  obtain ⟨oe, ie, hmem, hdesc, _⟩ := pass_mem1 c rest h1 h3 hv he
  have hvc : c.start < c.stop := hv c (List.mem_cons_self _ _)
  have hve : oe.start < oe.stop := hv oe (List.mem_cons_of_mem _ hmem)
  cases ie
  · rw [passDescB_false] at hdesc
    omega
  · rw [passDescB_true] at hdesc
    omega

theorem pass_head_cases (c : Entity) (rest : List (Option Entity)) :
    (passRest c rest).1 = some c ∨ (passRest c rest).1 = none := by
  by_cases h : (passDecision (scanSlots c rest)).1 = true
  · left
    show (if (passDecision (scanSlots c rest)).1 then some c else none) = some c
    rw [if_pos h]
  · right
    show (if (passDecision (scanSlots c rest)).1 then some c else none) = none
    rw [if_neg h]

theorem pass_head_disj (c : Entity) (rest : List (Option Entity))
    (h1 : Inv1 (some c :: rest)) (h3 : Inv3 (some c :: rest))
    (hv : ValidL (some c :: rest)) (hk : (passRest c rest).1 = some c) :
    ∀ e : Entity, some e ∈ (passRest c rest).2 →
      c.stop ≤ e.start ∨ e.stop ≤ c.start := by
  intro e he
  obtain ⟨oe, ie, hmem, hdesc, hie⟩ := pass_mem1 c rest h1 h3 hv he
  cases ie
  · rw [passDescB_false] at hdesc
    have hvc : c.start < c.stop := hv c (List.mem_cons_self _ _)
    have hve : oe.start < oe.stop := hv oe (List.mem_cons_of_mem _ hmem)
    omega
  · rw [hie rfl] at hk
    cases hk

/-- Pass-level provenance: every surviving span's slot held a span with the
same end offset starting no later. -/
theorem pass_provenance (c : Entity) (rest : List (Option Entity))
    (h1 : Inv1 (some c :: rest)) (h3 : Inv3 (some c :: rest))
    (hv : ValidL (some c :: rest)) :
    ∀ e : Entity, some e ∈ (passRest c rest).2 →
      ∃ oe : Entity, some oe ∈ rest ∧ oe.start ≤ e.start ∧ e.stop = oe.stop := by
  intro e he
  obtain ⟨oe, ie, hmem, hdesc, _⟩ := pass_mem1 c rest h1 h3 hv he
  refine ⟨oe, hmem, ?_, ?_⟩
  · cases ie
    · rw [passDescB_false] at hdesc
      have hvc : c.start < c.stop := hv c (List.mem_cons_self _ _)
      omega
    · rw [passDescB_true] at hdesc
      omega
  · cases ie
    · rw [passDescB_false] at hdesc
      omega
    · rw [passDescB_true] at hdesc
      omega

/-! ### The outer loop keeps live spans pairwise disjoint -/

theorem inv1_tail {x : Option Entity} {l : List (Option Entity)}
    (h : Inv1 (x :: l)) : Inv1 l :=
  fun a b hs => h a b (hs.cons _)

theorem inv3_tail {x : Option Entity} {l : List (Option Entity)}
    (h : Inv3 (x :: l)) : Inv3 l :=
  fun a o d hs => h a o d (hs.cons _)

theorem validL_tail {x : Option Entity} {l : List (Option Entity)}
    (h : ValidL (x :: l)) : ValidL l :=
  fun e he => h e (List.mem_cons_of_mem _ he)

theorem normalizeFuel_good :
    ∀ (n : Nat) (l : List (Option Entity)), l.length ≤ n →
      Inv1 l → Inv3 l → ValidL l →
      ((∀ a b : Entity, [some a, some b].Sublist (normalizeSlotsFuel n l) → Disj a b) ∧
        (∀ e : Entity, some e ∈ normalizeSlotsFuel n l → e.start < e.stop) ∧
        (∀ e : Entity, some e ∈ normalizeSlotsFuel n l →
          ∃ oe : Entity, some oe ∈ l ∧ oe.start ≤ e.start ∧ e.stop = oe.stop)) := by
  intro n
  induction n with
  | zero =>
    intro l hl _ _ _
    have hnil : l = [] := List.length_eq_zero.mp (Nat.le_zero.mp hl)
    subst hnil
    refine ⟨?_, ?_, ?_⟩
    · intro a b hs
      cases List.sublist_nil.mp hs
    · intro e he
      cases he
    · intro e he
      cases he
  | succ n ih =>
    intro l hl h1 h3 hv
    cases l with
    | nil =>
      refine ⟨?_, ?_, ?_⟩
      · intro a b hs
        cases List.sublist_nil.mp hs
      · intro e he
        cases he
      · intro e he
        cases he
    | cons x rest =>
      cases x with
      | none =>
        have heq : normalizeSlotsFuel (n + 1) (none :: rest)
            = none :: normalizeSlotsFuel n rest := rfl
        have hl' : rest.length ≤ n := by
          simp only [List.length_cons] at hl
          omega
        obtain ⟨ihd, ihv, ihp⟩ :=
          ih rest hl' (inv1_tail h1) (inv3_tail h3) (validL_tail hv)
        refine ⟨?_, ?_, ?_⟩
        · intro a b hs
          rw [heq] at hs
          rcases sublist_pair_cases hs with ⟨he, _⟩ | hs'
          · exact absurd he (by simp)
          · exact ihd a b hs'
        · intro e he
          rw [heq] at he
          rcases List.mem_cons.mp he with hee | hm
          · exact absurd hee (by simp)
          · exact ihv e hm
        · intro e he
          rw [heq] at he
          rcases List.mem_cons.mp he with hee | hm
          · exact absurd hee (by simp)
          · obtain ⟨oe, hoe, hle, hst⟩ := ihp e hm
            exact ⟨oe, List.mem_cons_of_mem _ hoe, hle, hst⟩
      | some c =>
        have heq : normalizeSlotsFuel (n + 1) (some c :: rest)
            = (passRest c rest).1 :: normalizeSlotsFuel n (passRest c rest).2 := rfl
        have hl' : (passRest c rest).2.length ≤ n := by
          rw [passRest_length]
          simp only [List.length_cons] at hl
          omega
        obtain ⟨ihd, ihv, ihp⟩ := ih _ hl' (pass_inv1 c rest h1 h3 hv)
          (pass_inv3 c rest h1 h3 hv) (pass_valid c rest h1 h3 hv)
        refine ⟨?_, ?_, ?_⟩
        · intro a b hs
          rw [heq] at hs
          rcases sublist_pair_cases hs with ⟨he, hb⟩ | hs'
          · rcases pass_head_cases c rest with hk | hk
            · rw [hk] at he
              injection he with he'
              subst he'
              have hbm : some b ∈ normalizeSlotsFuel n (passRest a rest).2 :=
                List.singleton_sublist.mp hb
              obtain ⟨ob, hobm, hob1, hob2⟩ := ihp b hbm
              have hdisj := pass_head_disj a rest h1 h3 hv hk ob hobm
              unfold Disj
              omega
            · rw [hk] at he
              exact absurd he (by simp)
          · exact ihd a b hs'
        · intro e he
          rw [heq] at he
          rcases List.mem_cons.mp he with hee | hm
          · rcases pass_head_cases c rest with hk | hk
            · rw [hk] at hee
              injection hee with hee'
              subst hee'
              exact hv e (List.mem_cons_self _ _)
            · rw [hk] at hee
              exact absurd hee (by simp)
          · exact ihv e hm
        · intro e he
          rw [heq] at he
          rcases List.mem_cons.mp he with hee | hm
          · rcases pass_head_cases c rest with hk | hk
            · rw [hk] at hee
              injection hee with hee'
              subst hee'
              exact ⟨e, List.mem_cons_self _ _, Int.le_refl _, rfl⟩
            · rw [hk] at hee
              exact absurd hee (by simp)
          · obtain ⟨oe', hoe', hle', hst'⟩ := ihp e hm
            obtain ⟨oe, hoe, hle, hst⟩ :=
              pass_provenance c rest h1 h3 hv oe' hoe'
            refine ⟨oe, List.mem_cons_of_mem _ hoe, by omega, by omega⟩

theorem sublist_map_some₂ :
    ∀ {m : List Entity} {a b : Entity},
      [some a, some b].Sublist (m.map some) → [a, b].Sublist m := by
  intro m
  induction m with
  | nil => intro a b hs; cases List.sublist_nil.mp hs
  | cons x xs ih =>
    intro a b hs
    rcases sublist_pair_cases hs with ⟨he, hb⟩ | hs'
    · injection he with he'
      subst he'
      have : b ∈ xs := by
        have hmem := List.singleton_sublist.mp hb
        simpa using hmem
      exact List.Sublist.cons₂ _ (List.singleton_sublist.mpr this)
    · exact (ih hs').cons _

theorem sublist_map_some₃ :
    ∀ {m : List Entity} {a b c : Entity},
      [some a, some b, some c].Sublist (m.map some) → [a, b, c].Sublist m := by
  intro m
  induction m with
  | nil => intro a b c hs; cases List.sublist_nil.mp hs
  | cons x xs ih =>
    intro a b c hs
    rcases sublist_triple_cases hs with ⟨he, hbc⟩ | hs'
    · injection he with he'
      subst he'
      exact List.Sublist.cons₂ _ (sublist_map_some₂ hbc)
    · exact (ih hs').cons _

theorem filterMap_id_sublist₂ :
    ∀ {m : List (Option Entity)} {a b : Entity},
      [a, b].Sublist (m.filterMap id) → [some a, some b].Sublist m := by
  intro m
  induction m with
  | nil => intro a b hs; cases List.sublist_nil.mp hs
  | cons x xs ih =>
    intro a b hs
    cases x with
    | none =>
      rw [List.filterMap_cons] at hs
      exact (ih hs).cons _
    | some y =>
      rw [List.filterMap_cons] at hs
      simp only [id] at hs
      rcases sublist_pair_cases hs with ⟨he, hb⟩ | hs'
      · subst he
        have : b ∈ xs.filterMap id := List.singleton_sublist.mp hb
        have : some b ∈ xs := by
          obtain ⟨z, hz, hz'⟩ := List.mem_filterMap.mp this
          simpa [← hz'] using hz
        exact List.Sublist.cons₂ _ (List.singleton_sublist.mpr this)
      · exact (ih hs').cons _

theorem filterMap_id_mem {m : List (Option Entity)} {a : Entity}
    (h : a ∈ m.filterMap id) : some a ∈ m := by
  obtain ⟨z, hz, hz'⟩ := List.mem_filterMap.mp h
  simpa [← hz'] using hz

/-- The core guarantee of `normalize_entity_spans` on non-degenerate spans:
the returned spans are pairwise interval-disjoint, and all non-degenerate. -/
theorem normalize_disjoint_valid (S : List Entity)
    (hval : ∀ e ∈ S, e.start < e.stop) :
    (normalize_entity_spans S).Pairwise Disj ∧
      ∀ e ∈ normalize_entity_spans S, e.start < e.stop := by
  have hsorted : (List.insertionSort entLE S).Pairwise entLE :=
    List.sorted_insertionSort entLE S
  have hmem : ∀ e ∈ List.insertionSort entLE S, e.start < e.stop := by
    intro e he
    exact hval e ((List.perm_insertionSort entLE S).mem_iff.mp he)
  have h1 : Inv1 ((List.insertionSort entLE S).map some) := by
    intro a b hs
    have := pairwise_pair hsorted (sublist_map_some₂ hs)
    unfold entLE at this
    omega
  have h3 : Inv3 ((List.insertionSort entLE S).map some) := by
    intro a o d hs hyp
    have := pairwise_pair hsorted (triple_sub_23 (sublist_map_some₃ hs))
    unfold entLE at this
    omega
  have hvl : ValidL ((List.insertionSort entLE S).map some) := by
    intro e he
    have : e ∈ List.insertionSort entLE S := by simpa using he
    exact hmem e this
  obtain ⟨hd, hvee, _⟩ := normalizeFuel_good
    ((List.insertionSort entLE S).map some).length
    ((List.insertionSort entLE S).map some) (Nat.le_refl _) h1 h3 hvl
  constructor
  · apply pairwise_of_sublist_pairs
    intro a b hs
    exact hd a b (filterMap_id_sublist₂ hs)
  · intro e he
    exact hvee e (filterMap_id_mem he)

/-- Claim C1, amended: for spans each satisfying `start < end`, any two
distinct spans in the output of `normalize_entity_spans` satisfy
`not a.overlaps(b)`, `not b.overlaps(a)`, `not a.contains(b)` and
`not b.contains(a)` — no character offset lies inside more than one output
span. -/
theorem normalize_entity_spans_pairwise_disjoint (S : List Entity)
    (hval : ∀ e ∈ S, e.start < e.stop) :
    (normalize_entity_spans S).Pairwise
      (fun a b => a.overlaps b = false ∧ b.overlaps a = false ∧
        a.contains b = false ∧ b.contains a = false) := by
  obtain ⟨hdisj, hv⟩ := normalize_disjoint_valid S hval
  apply pairwise_of_sublist_pairs
  intro a b hs
  have hD : Disj a b := pairwise_pair hdisj hs
  have hva : a.start < a.stop := hv a (pair_sublist_mem₁ hs)
  have hvb : b.start < b.stop := hv b (pair_sublist_mem₂ hs)
  unfold Disj at hD
  refine ⟨?_, ?_, ?_, ?_⟩ <;>
    · rw [Bool.eq_false_iff]
      intro hh
      simp only [Entity.overlaps, Entity.contains, Bool.or_eq_true, Bool.and_eq_true,
        decide_eq_true_eq, ge_iff_le] at hh
      omega

theorem normalize_entity_spans_pairwise_disjoint_witness :
    (∀ e ∈ [Entity.mk 0 5 "X", Entity.mk 3 8 "Y"], e.start < e.stop) ∧
    (normalize_entity_spans [Entity.mk 0 5 "X", Entity.mk 3 8 "Y"]).Pairwise
      (fun a b => a.overlaps b = false ∧ b.overlaps a = false ∧
        a.contains b = false ∧ b.contains a = false) :=
  ⟨by decide,
    normalize_entity_spans_pairwise_disjoint
      [Entity.mk 0 5 "X", Entity.mk 3 8 "Y"] (by decide)⟩

/-! ### A second pass over the (re-sorted) normalized output is the identity -/

theorem innerEntities_tailAll : ∀ m : List (Option Entity),
    innerEntities (tailAll m) = [] := by
  intro m
  induction m with
  | nil => rfl
  | cons x xs ih => cases x <;> simpa [tailAll, innerEntities] using ih

theorem applySlots_tailAll (er : List Nat) :
    ∀ (m : List (Option Entity)) (k : Nat), applySlots er (tailAll m) k = m := by
  intro m
  induction m with
  | nil => intro k; rfl
  | cons x xs ih =>
    intro k
    cases x with
    | none => rw [tailAll, applySlots, ih]
    | some e => rw [tailAll, applySlots, ih]

theorem normalizeFuel_id :
    ∀ (n : Nat) (xs : List Entity), xs.Pairwise (fun a b => a.stop ≤ b.start) →
      normalizeSlotsFuel n (xs.map some) = xs.map some := by
  intro n
  induction n with
  | zero => intro xs _; rfl
  | succ n ih =>
    intro xs hp
    cases xs with
    | nil => rfl
    | cons c xs' =>
      have hpr : passRest c (xs'.map some) = (some c, xs'.map some) := by
        cases xs' with
        | nil => rfl
        | cons x xs'' =>
          have hb : c.is_before x = true := by
            have := (List.pairwise_cons.mp hp).1 x (List.mem_cons_self _ _)
            simpa [Entity.is_before] using this
          have hscan : scanSlots c ((x :: xs'').map some)
              = Slot.tail x :: tailAll (xs''.map some) := by
            rw [List.map_cons, scanSlots, if_pos hb]
          have hdec : passDecision (Slot.tail x :: tailAll (xs''.map some))
              = (true, []) := by
            refine passDecision_zero ?_
            have : innerEntities (Slot.tail x :: tailAll (xs''.map some))
                = innerEntities (tailAll (xs''.map some)) := rfl
            rw [this, innerEntities_tailAll]
            rfl
          unfold passRest
          rw [hscan]
          dsimp only
          rw [hdec]
          simp only [if_true]
          rw [applySlots, applySlots_tailAll, ← List.map_cons]
      have heq : normalizeSlotsFuel (n + 1) ((c :: xs').map some)
          = (passRest c (xs'.map some)).1
              :: normalizeSlotsFuel n (passRest c (xs'.map some)).2 := rfl
      rw [heq, hpr]
      rw [ih xs' (List.pairwise_cons.mp hp).2]
      rfl

theorem disj_symm {a b : Entity} (h : Disj a b) : Disj b a := by
  unfold Disj at *
  omega

theorem sorted_disjoint_strong (out : List Entity)
    (hd : out.Pairwise Disj) (hv : ∀ e ∈ out, e.start < e.stop) :
    (List.insertionSort entLE out).Pairwise (fun a b => a.stop ≤ b.start) := by
  have hperm := List.perm_insertionSort entLE out
  have hd' : (List.insertionSort entLE out).Pairwise Disj :=
    (hperm.pairwise_iff fun h => disj_symm h).mpr hd
  have hs : (List.insertionSort entLE out).Pairwise entLE :=
    List.sorted_insertionSort entLE out
  apply pairwise_of_sublist_pairs
  intro a b hsub
  have h1 := pairwise_pair hs hsub
  have h2 := pairwise_pair hd' hsub
  have hvb : b.start < b.stop :=
    hv b (hperm.mem_iff.mp (pair_sublist_mem₂ hsub))
  unfold entLE Entity.span_len at h1
  unfold Disj at h2
  omega

theorem filterMap_id_map_some : ∀ l : List Entity, (l.map some).filterMap id = l := by
  intro l
  induction l with
  | nil => rfl
  | cons x xs ih => simp [List.map_cons, List.filterMap_cons, ih]

/-- Claim C2, amended: for spans each satisfying `start < end`, a second pass
of `normalize_entity_spans` over an already-normalized set adds, drops and
modifies nothing — it merely re-sorts: the result equals the first pass's
output sorted by `compare_by_start_and_length`, hence the two are equal as
multisets of `(start, end, type)` triples (but not always as lists). -/
theorem normalize_entity_spans_multiset_idempotent (S : List Entity)
    (hval : ∀ e ∈ S, e.start < e.stop) :
    normalize_entity_spans (normalize_entity_spans S)
      = List.insertionSort entLE (normalize_entity_spans S) ∧
    (normalize_entity_spans (normalize_entity_spans S)).Perm
      (normalize_entity_spans S) := by
  obtain ⟨hd, hv⟩ := normalize_disjoint_valid S hval
  have hstrong := sorted_disjoint_strong _ hd hv
  have hid : normalize_entity_spans (normalize_entity_spans S)
      = List.insertionSort entLE (normalize_entity_spans S) := by
    show (normalizeSlotsFuel
        ((List.insertionSort entLE (normalize_entity_spans S)).map some).length
        ((List.insertionSort entLE (normalize_entity_spans S)).map some)).filterMap id
      = _
    rw [normalizeFuel_id _ _ hstrong]
    exact filterMap_id_map_some _
  exact ⟨hid, hid ▸ List.perm_insertionSort entLE (normalize_entity_spans S)⟩

theorem normalize_entity_spans_multiset_idempotent_witness :
    (∀ e ∈ [Entity.mk 0 1 "X", Entity.mk 0 2 "X", Entity.mk 1 2 "X",
        Entity.mk 1 3 "X"], e.start < e.stop) ∧
    (normalize_entity_spans (normalize_entity_spans
        [Entity.mk 0 1 "X", Entity.mk 0 2 "X", Entity.mk 1 2 "X", Entity.mk 1 3 "X"])
      = List.insertionSort entLE (normalize_entity_spans
          [Entity.mk 0 1 "X", Entity.mk 0 2 "X", Entity.mk 1 2 "X", Entity.mk 1 3 "X"]) ∧
    (normalize_entity_spans (normalize_entity_spans
        [Entity.mk 0 1 "X", Entity.mk 0 2 "X", Entity.mk 1 2 "X", Entity.mk 1 3 "X"])).Perm
      (normalize_entity_spans
        [Entity.mk 0 1 "X", Entity.mk 0 2 "X", Entity.mk 1 2 "X", Entity.mk 1 3 "X"])) :=
  ⟨by decide,
    normalize_entity_spans_multiset_idempotent
      [Entity.mk 0 1 "X", Entity.mk 0 2 "X", Entity.mk 1 2 "X", Entity.mk 1 3 "X"]
      (by decide)⟩
